import Mathlib

/-!
Verification of the zshrc-manager section-detection engine.

This file gives a shallow embedding of the engine:

* `detectSectionMarker` and its nine marker grammars
  (src/extensions/zshrc-manager/src/lib/section-detector.ts);
* `updateSectionContext` and the descriptive-function-name heuristic
  (same file);
* the custom-pattern preference validation (`hasCaptureGroup`,
  `compilePattern`, `getCustomPatterns`);
* the logical-section builder (`pushSection`, `toLogicalSections`) and the
  pattern-registry counting functions it relies on.

Strings are modelled as `List Char` internally (Lean `String` is a
structure holding exactly that list, so `String`-typed fields convert
freely).  JavaScript arrays pushed/popped at the end are Lean lists
appended/dropLast-ed at the end.  `functionLevel` is an `Int`, as the
engine lets it go negative.

The regex source strings live in src/constants.ts, which is not part of
the corpus; each matcher modelled from the spec is marked as such in its
doc comment.  All definitions are executable.
-/

namespace Zshrc

/-- ASCII whitespace recognized by JavaScript `trim()` and the regex class
backslash-s (the engine processes ASCII shell text). -/
def isWs (c : Char) : Bool :=
  c = ' ' || c = '\t' || c = '\n' || c = '\r' || c = '\x0b' || c = '\x0c'

/-- Drop leading whitespace. -/
def dropWs (l : List Char) : List Char := l.dropWhile isWs

/-- JavaScript `String.prototype.trim` on a character list. -/
def trimChars (l : List Char) : List Char :=
  ((l.dropWhile isWs).reverse.dropWhile isWs).reverse

/-- ASCII letter. -/
def isAsciiAlpha (c : Char) : Bool :=
  ('a' ≤ c && c ≤ 'z') || ('A' ≤ c && c ≤ 'Z')

/-- ASCII digit. -/
def isDigitCh (c : Char) : Bool := '0' ≤ c && c ≤ '9'

/-- First character of a shell identifier: regex class [A-Za-z_]. -/
def isIdentStart (c : Char) : Bool := isAsciiAlpha c || c = '_'

/-- Continuation character of a shell identifier: regex class [A-Za-z0-9_]. -/
def isIdentChar (c : Char) : Bool := isAsciiAlpha c || isDigitCh c || c = '_'

/-- ASCII uppercase letter. -/
def isUpperAZ (c : Char) : Bool := 'A' ≤ c && c ≤ 'Z'

/-- ASCII lowercasing, as JavaScript case-insensitive matching folds ASCII. -/
def toLowerAscii (c : Char) : Char :=
  if isUpperAZ c then Char.ofNat (c.toNat + 32) else c

/-- The nine marker kinds of `SectionMarkerType` (src/types/enums.ts). -/
inductive SectionMarkerType where
  | custom_start
  | custom_end
  | dashed_start
  | dashed_end
  | bracketed
  | hash
  | function_start
  | function_end
  | labeled
  deriving DecidableEq

/-- A detected section marker (interface `SectionMarker`). -/
structure SectionMarker where
  type : SectionMarkerType
  name : String
  lineNumber : Nat
  originalLine : String
  priority : Nat
  deriving DecidableEq

/-- Running parse state (interface `SectionContext`).  The stack holds open
section names outermost-first; `functionLevel` may go negative. -/
structure SectionContext where
  currentSection : Option String
  sectionStack : List String
  functionLevel : Int
  deriving DecidableEq

/-- Modelled from the spec: SECTION_FORMATS.CUSTOM_START recognizes
`# at-start Name` (regex ^#\s*@start\s+(.+)$); the capture is the name.
src/constants.ts is not in the corpus; form and capture corroborated by the
in-corpus detector tests. -/
def matchCustomStart (l : List Char) : Option (List Char) :=
  match l with
  | '#' :: r =>
    let r1 := dropWs r
    if "@start".data.isPrefixOf r1 then
      match r1.drop 6 with
      | c :: _ =>
        if isWs c then
          let cap := dropWs (r1.drop 6)
          if cap.isEmpty then none else some cap
        else none
      | [] => none
    else none
  | _ => none

/-- Modelled from the spec: SECTION_FORMATS.CUSTOM_END recognizes
`# at-end Name` (regex ^#\s*@end\s+(.+)$); the capture is the name. -/
def matchCustomEnd (l : List Char) : Option (List Char) :=
  match l with
  | '#' :: r =>
    let r1 := dropWs r
    if "@end".data.isPrefixOf r1 then
      match r1.drop 4 with
      | c :: _ =>
        if isWs c then
          let cap := dropWs (r1.drop 4)
          if cap.isEmpty then none else some cap
        else none
      | [] => none
    else none
  | _ => none

/-- Modelled from the spec: SECTION_FORMATS.DASHED_END recognizes
`# --- End [Name] --- #` (regex ^#\s*---\s*End.*---\s*#$) with no capture
group: the detector tests show the resulting marker name is empty. -/
def matchDashedEnd (l : List Char) : Option (List Char) :=
  match l with
  | '#' :: r =>
    let r1 := dropWs r
    if "---".data.isPrefixOf r1 then
      if "End".data.isPrefixOf (dropWs (r1.drop 3)) then
        match l.reverse with
        | '#' :: rr =>
          if "---".data.isPrefixOf (dropWs rr) then some [] else none
        | _ => none
      else none
    else none
  | _ => none

/-- Modelled from the spec: SECTION_FORMATS.DASHED_START recognizes
`# --- Name --- #` (regex ^#\s*---\s*(.+?)\s*---\s*#$); the capture is the
name between the dash runs. -/
def matchDashedStart (l : List Char) : Option (List Char) :=
  match l with
  | '#' :: r =>
    let r1 := dropWs r
    if "---".data.isPrefixOf r1 then
      match (r1.drop 3).reverse with
      | '#' :: rr =>
        let rr1 := dropWs rr
        if "---".data.isPrefixOf rr1 then
          let cap := trimChars (rr1.drop 3).reverse
          if cap.isEmpty then none else some cap
        else none
      | _ => none
    else none
  | _ => none

/-- Modelled from the spec: SECTION_FORMATS.BRACKETED recognizes
`# [Name]` (regex ^#\s*\[(.+)\]$); the capture is the bracket content. -/
def matchBracketed (l : List Char) : Option (List Char) :=
  match l with
  | '#' :: r =>
    match dropWs r with
    | '[' :: r2 =>
      match r2.reverse with
      | ']' :: rr =>
        let cap := rr.reverse
        if cap.isEmpty then none else some cap
      | _ => none
    | _ => none
  | _ => none

/-- Modelled from the spec: SECTION_FORMATS.HASH recognizes `## Name`
(regex ^##\s*(.+)$); the capture is the heading text. -/
def matchHash (l : List Char) : Option (List Char) :=
  if "##".data.isPrefixOf l then
    let cap := dropWs (l.drop 2)
    if cap.isEmpty then none else some cap
  else none

/-- The function-definition shape `name() \x7b` with nothing after the brace
(regex ([A-Za-z_][A-Za-z0-9_]*)\s*\(\s*\)\s*\x7b against a trimmed line);
returns the captured identifier.  Shared by the FUNCTION_START marker
grammar and the registry's FUNCTION entry grammar, which use the same
shape. -/
def functionNameOf (l : List Char) : Option (List Char) :=
  let i := l.takeWhile isIdentChar
  match i with
  | [] => none
  | c :: _ =>
    if isIdentStart c then
      match dropWs (l.drop i.length) with
      | '(' :: r2 =>
        match dropWs r2 with
        | ')' :: r3 =>
          match dropWs r3 with
          | '\x7b' :: r4 => if r4.isEmpty then some i else none
          | _ => none
        | _ => none
      | _ => none
    else none

/-- Modelled from the spec: SECTION_FORMATS.FUNCTION_END recognizes a line
that is exactly a closing brace. -/
def matchFunctionEnd (l : List Char) : Option (List Char) :=
  if l = ['\x7d'] then some [] else none

/-- Modelled from the spec: SECTION_FORMATS.LABELED recognizes
`# Section: Name` case-insensitively (regex ^#\s*section\s*:\s*(.+)$ with
the i flag); the capture is the name after the colon. -/
def matchLabeled (l : List Char) : Option (List Char) :=
  match l with
  | '#' :: r =>
    let r1 := dropWs r
    if (r1.take 7).map toLowerAscii = "section".data then
      match dropWs (r1.drop 7) with
      | ':' :: r2 =>
        let cap := dropWs r2
        if cap.isEmpty then none else some cap
      | _ => none
    else none
  | _ => none

/-- The grammar of each marker kind. -/
def matcherOf : SectionMarkerType → (List Char → Option (List Char))
  | .custom_start => matchCustomStart
  | .custom_end => matchCustomEnd
  | .dashed_start => matchDashedStart
  | .dashed_end => matchDashedEnd
  | .bracketed => matchBracketed
  | .hash => matchHash
  | .function_start => functionNameOf
  | .function_end => matchFunctionEnd
  | .labeled => matchLabeled

/-- Position of each marker kind in the detector's fixed priority order. -/
def markerRank : SectionMarkerType → Nat
  | .custom_start => 0
  | .custom_end => 1
  | .dashed_end => 2
  | .dashed_start => 3
  | .bracketed => 4
  | .hash => 5
  | .function_start => 6
  | .function_end => 7
  | .labeled => 8

/-- Modelled from the spec: PARSING_CONSTANTS.SECTION_PRIORITIES assigns each
marker kind a diagnostics-only integer weight (src/constants.ts is not in
the corpus; only the first-match order is observable, so the exact values
are free). -/
def markerPriority (t : SectionMarkerType) : Nat := 9 - markerRank t

/-- The detector's format table, in the order the source lists it:
custom_start, custom_end, dashed_end, dashed_start, bracketed, hash,
function_start, function_end, labeled. -/
def markerFormats : List (SectionMarkerType × (List Char → Option (List Char))) :=
  [(.custom_start, matchCustomStart),
   (.custom_end, matchCustomEnd),
   (.dashed_end, matchDashedEnd),
   (.dashed_start, matchDashedStart),
   (.bracketed, matchBracketed),
   (.hash, matchHash),
   (.function_start, functionNameOf),
   (.function_end, matchFunctionEnd),
   (.labeled, matchLabeled)]

/-- The loop body of `detectSectionMarker`: try each format on the trimmed
line and build a marker from the first match (the captured name is itself
trimmed, an absent capture yields the empty name). -/
def detectFrom (line : String) (lineNumber : Nat) :
    List (SectionMarkerType × (List Char → Option (List Char))) → Option SectionMarker
  | [] => none
  | (t, m) :: rest =>
    match m (trimChars line.data) with
    | some cap => some ⟨t, (trimChars cap).asString, lineNumber, line, markerPriority t⟩
    | none => detectFrom line lineNumber rest

/-- `detectSectionMarker` (section-detector.ts, lines 48-108). -/
def detectSectionMarker (line : String) (lineNumber : Nat) : Option SectionMarker :=
  detectFrom line lineNumber markerFormats

/-- Heuristic pattern 1, regex ^[a-z]\x7b3,\x7d$ with the i flag: an
all-letter name of length at least three. -/
def patAllLetters (l : List Char) : Bool :=
  decide (3 ≤ l.length) && l.all isAsciiAlpha

/-- Heuristic pattern 2, regex ^[a-z]+_[a-z]+$ with the i flag: letters, one
underscore, letters. -/
def patSnakeCase (l : List Char) : Bool :=
  let a := l.takeWhile (fun c => c != '_')
  match l.drop a.length with
  | '_' :: b => !a.isEmpty && a.all isAsciiAlpha && !b.isEmpty && b.all isAsciiAlpha
  | _ => false

/-- Heuristic pattern 3, regex ^[a-z]+[A-Z][a-z]+$ with the i flag.  Under
the i flag all three classes coincide with [A-Za-z], so the pattern accepts
exactly the all-letter names of length at least three. -/
def patCamelCase (l : List Char) : Bool :=
  decide (3 ≤ l.length) && l.all isAsciiAlpha

/-- The verb alternatives of heuristic pattern 4. -/
def descriptiveVerbs : List String :=
  ["setup", "init", "config", "install", "update", "clean", "build", "deploy"]

/-- Heuristic pattern 4, regex ^(setup|init|config|install|update|clean|build|deploy)
with the i flag: begins with one of the verbs, case-insensitively. -/
def patVerbStart (l : List Char) : Bool :=
  descriptiveVerbs.any (fun v => v.data.isPrefixOf (l.map toLowerAscii))

/-- `isDescriptiveFunctionName` (section-detector.ts, lines 167-177): some
pattern in the list accepts the name. -/
def isDescriptiveFunctionName (functionName : String) : Bool :=
  [patAllLetters, patSnakeCase, patCamelCase, patVerbStart].any
    (fun pattern => pattern functionName.data)

/-- JavaScript `context.currentSection?.startsWith("Function:")`. -/
def currentIsFunctionSection (o : Option String) : Bool :=
  match o with
  | some s => "Function:".data.isPrefixOf s.data
  | none => false

/-- `updateSectionContext` (section-detector.ts, lines 117-159): the value of
the returned (spread-copied) context object.  Stack pushes append at the
end; end markers pop unconditionally; function markers track the brace
level and heuristically promote function bodies to sections. -/
def updateSectionContext (marker : SectionMarker) (context : SectionContext) :
    SectionContext :=
  match marker.type with
  | .custom_start | .dashed_start | .bracketed | .hash | .labeled =>
    { context with
      currentSection := some marker.name
      sectionStack := context.sectionStack ++ [marker.name] }
  | .custom_end | .dashed_end =>
    let stack := context.sectionStack.dropLast
    { context with
      currentSection := stack.getLast?
      sectionStack := stack }
  | .function_start =>
    if marker.name != "" && isDescriptiveFunctionName marker.name then
      { context with
        functionLevel := context.functionLevel + 1
        currentSection := some ("Function: " ++ marker.name)
        sectionStack := context.sectionStack ++ ["Function: " ++ marker.name] }
    else
      { context with functionLevel := context.functionLevel + 1 }
  | .function_end =>
    let lvl := context.functionLevel - 1
    if lvl == 0 && currentIsFunctionSection context.currentSection then
      let stack := context.sectionStack.dropLast
      { currentSection := stack.getLast?
        sectionStack := stack
        functionLevel := lvl }
    else
      { context with functionLevel := lvl }

/-- The observable state of the caller's `context` argument after
`updateSectionContext` returns.  The source starts with a shallow object
spread, so the returned object's `sectionStack` field holds the same array
as the input's: the `push`/`pop` calls inside the switch mutate that shared
array, while the assignments to `newContext.currentSection` and
`newContext.functionLevel` rebind fields of the copy only.  Hence the input
keeps its own `currentSection` and `functionLevel` but sees the returned
context's stack contents. -/
def inputAfterUpdate (marker : SectionMarker) (context : SectionContext) :
    SectionContext :=
  { context with sectionStack := (updateSectionContext marker context).sectionStack }

/-- The context every scan starts from. -/
def initialContext : SectionContext :=
  { currentSection := none, sectionStack := [], functionLevel := 0 }

/-! ## Custom pattern preferences (src/unnamed/part_003) -/

/-- User preferences for section detection (interface `SectionPrefs`).
Optional text fields are `Option String`; an empty string is falsy in the
source's truthiness tests. -/
structure SectionPrefs where
  enableDefaults : Bool
  enableCustomHeaderPattern : Bool
  customHeaderPattern : Option String
  enableCustomStartEndPatterns : Bool
  customStartPattern : Option String
  customEndPattern : Option String
  deriving DecidableEq

/-- JavaScript truthiness of an optional string. -/
def truthyStr : Option String → Bool
  | some s => s != ""
  | none => false

/-- Negative-lookahead test of the capture-group scanner: the group opener
is immediately followed by `?!`, `?=` or `?:`. -/
def isNonCapturingHead : List Char → Bool
  | '?' :: c :: _ => c = '!' || c = '=' || c = ':'
  | _ => false

/-- Left-to-right scan counting the matches of the global regex used by
`hasCaptureGroup`: a match is an opening parenthesis not followed by `?!`,
`?=` or `?:`, a run of non-closing characters, and the first closing
parenthesis; scanning resumes after each match, as `String.prototype.match`
with the g flag does.  The flag records being inside a pending match
looking for its closing parenthesis; a pending match that never finds one
fails, and since no closing parenthesis remains, the skipped characters
can start no further match either. -/
def countCapScan : Bool → List Char → Nat
  | _, [] => 0
  | true, c :: r => if c = ')' then 1 + countCapScan false r else countCapScan true r
  | false, c :: r =>
    if c = '(' && !isNonCapturingHead r then countCapScan true r
    else countCapScan false r

/-- The number of capture groups the `hasCaptureGroup` regex finds. -/
def countCaptureGroups (l : List Char) : Nat := countCapScan false l

/-- `hasCaptureGroup` (src/unnamed/part_003, lines 65-69): the pattern
contains exactly one capture group. -/
def hasCaptureGroup (pattern : String) : Bool :=
  countCaptureGroups pattern.data == 1

/-- The pattern string already starts with a caret anchor. -/
def startsWithCaret (p : String) : Bool :=
  match p.data with
  | '^' :: _ => true
  | _ => false

/-- `compilePattern` (src/unnamed/part_003, lines 44-57): empty or missing
patterns yield null; otherwise the pattern is caret-anchored and compiled
case-insensitively inside try/catch.  Whether `new RegExp` succeeds is
external regex-engine behavior, abstracted as the `regexCompiles` oracle;
a compiled regex is represented by its anchored source string.  Returns
the compiled pattern and the `console.warn` messages emitted. -/
def compilePattern (regexCompiles : String → Bool) (pattern : Option String)
    (description : String) : Option String × List String :=
  match pattern with
  | none => (none, [])
  | some p =>
    if (trimChars p.data).isEmpty then (none, [])
    else
      let anchored := if startsWithCaret p then p else "^" ++ p
      if regexCompiles anchored then (some anchored, [])
      else (none, ["Invalid " ++ description ++ " pattern: " ++ p])

/-- The three optional compiled custom patterns. -/
structure CustomPatterns where
  headerPattern : Option String
  startPattern : Option String
  endPattern : Option String
  deriving DecidableEq

/-- `getCustomPatterns` (src/unnamed/part_003, lines 76-109) with the
preference read made explicit: validates and compiles the enabled custom
patterns.  Returns the patterns and the `console.warn` messages emitted. -/
def getCustomPatterns (regexCompiles : String → Bool) (prefs : SectionPrefs) :
    CustomPatterns × List String :=
  let headerRes :=
    if prefs.enableCustomHeaderPattern && truthyStr prefs.customHeaderPattern then
      if hasCaptureGroup (prefs.customHeaderPattern.getD "") then
        compilePattern regexCompiles prefs.customHeaderPattern "header"
      else
        (none, ["Custom header pattern must contain exactly one capture group"])
    else (none, [])
  let startRes :=
    if prefs.enableCustomStartEndPatterns && truthyStr prefs.customStartPattern
        && hasCaptureGroup (prefs.customStartPattern.getD "") then
      compilePattern regexCompiles prefs.customStartPattern "start"
    else (none, [])
  let endRes :=
    if prefs.enableCustomStartEndPatterns && truthyStr prefs.customEndPattern then
      compilePattern regexCompiles prefs.customEndPattern "end"
    else (none, [])
  (⟨headerRes.1, startRes.1, endRes.1⟩, headerRes.2 ++ startRes.2 ++ endRes.2)

/-! ## Entry grammars

The pattern registry (src/lib/pattern-registry.ts) is not in the corpus.
Its grammars are modelled from the spec, following the registry's
deprecated in-corpus duplicates in src/extensions/zshrc-manager/src/utils/parsers.ts,
which the engine documents as the same patterns. -/

/-- Quote character accepted by the alias and theme grammars. -/
def isQuoteCh (c : Char) : Bool := c = '\'' || c = '"'

/-- Character class of an alias name: [A-Za-z0-9_.:-]. -/
def isAliasNameChar (c : Char) : Bool :=
  isAsciiAlpha c || isDigitCh c || c = '_' || c = '.' || c = ':' || c = '-'

/-- Shared shape of the eval/setopt/source/bindkey grammars:
regex ^\s*KEYWORD\s+(.+?)\s*$ as a line test. -/
def kwSpaceRest (kw : String) (l : List Char) : Bool :=
  let r := dropWs l
  if kw.data.isPrefixOf r then
    match r.drop kw.data.length with
    | c :: r1 => isWs c && !r1.isEmpty
    | [] => false
  else false

/-- Modelled from the spec: ALIAS grammar,
regex ^\s*alias\s+([A-Za-z0-9_.:-]+)=('|")(.*?)('|")\s*$ as a line test. -/
def matchAliasLine (l : List Char) : Bool :=
  let r := dropWs l
  if "alias".data.isPrefixOf r then
    match r.drop 5 with
    | c :: r1 =>
      isWs c &&
        (let r2 := dropWs r1
         let nm := r2.takeWhile isAliasNameChar
         !nm.isEmpty &&
           (match r2.drop nm.length with
            | '=' :: q :: r5 =>
              isQuoteCh q &&
                (match dropWs r5.reverse with
                 | q2 :: _ => isQuoteCh q2
                 | [] => false)
            | _ => false))
    | [] => false
  else false

/-- Modelled from the spec: EXPORT grammar,
regex ^\s*(?:export|typeset\s+-x)\s+([A-Za-z_][A-Za-z0-9_]*)=(.*?)\s*$
as a line test. -/
def matchExportLine (l : List Char) : Bool :=
  let r := dropWs l
  let afterKw : Option (List Char) :=
    if "export".data.isPrefixOf r then some (r.drop 6)
    else if "typeset".data.isPrefixOf r then
      match r.drop 7 with
      | c :: r1 =>
        if isWs c then
          let r2 := dropWs r1
          if "-x".data.isPrefixOf r2 then some (r2.drop 2) else none
        else none
      | [] => none
    else none
  match afterKw with
  | some rest =>
    (match rest with
     | c :: r1 =>
       isWs c &&
         (let r2 := dropWs r1
          match r2.takeWhile isIdentChar with
          | [] => false
          | v0 :: v =>
            isIdentStart v0 &&
              (match r2.drop (v.length + 1) with
               | '=' :: _ => true
               | _ => false))
     | [] => false)
  | none => false

/-- Modelled from the spec: EVAL grammar, regex ^\s*eval\s+(.+?)\s*$. -/
def matchEvalLine (l : List Char) : Bool := kwSpaceRest "eval" l

/-- Modelled from the spec: SETOPT grammar, regex ^\s*setopt\s+(.+?)\s*$. -/
def matchSetoptLine (l : List Char) : Bool := kwSpaceRest "setopt" l

/-- Modelled from the spec: SOURCE grammar, regex ^\s*source\s+(.+?)\s*$. -/
def matchSourceLine (l : List Char) : Bool := kwSpaceRest "source" l

/-- Modelled from the spec: KEYBINDING grammar, regex ^\s*bindkey\s+(.+?)\s*$. -/
def matchKeybindingLine (l : List Char) : Bool := kwSpaceRest "bindkey" l

/-- Shared shape of the plugins/fpath grammars:
regex ^\s*KEYWORD\s*=\s*\(([^)]+)\)\s*$ as a line test. -/
def kwParenList (kw : String) (l : List Char) : Bool :=
  let r := dropWs l
  if kw.data.isPrefixOf r then
    match dropWs (r.drop kw.data.length) with
    | '=' :: r2 =>
      (match dropWs r2 with
       | '(' :: r3 =>
         let body := r3.takeWhile (fun c => c != ')')
         !body.isEmpty &&
           (match r3.drop body.length with
            | ')' :: r4 => (dropWs r4).isEmpty
            | _ => false)
       | _ => false)
    | _ => false
  else false

/-- Modelled from the spec: PLUGIN grammar,
regex ^\s*plugins\s*=\s*\(([^)]+)\)\s*$. -/
def matchPluginsLine (l : List Char) : Bool := kwParenList "plugins" l

/-- Modelled from the spec: FPATH grammar,
regex ^\s*fpath\s*=\s*\(([^)]+)\)\s*$. -/
def matchFpathLine (l : List Char) : Bool := kwParenList "fpath" l

/-- Modelled from the spec: FUNCTION grammar,
regex ^\s*([A-Za-z_][A-Za-z0-9_]*)\s*\(\s*\)\s*\x7b\s*$ as a line test; the
core shape is shared with the FUNCTION_START marker grammar. -/
def matchFunctionLine (l : List Char) : Bool :=
  (functionNameOf (trimChars l)).isSome

/-- Shared shape of the PATH/HIST value grammars: an equals sign followed by
a non-empty remainder (regex tail =\s*(.+?)\s*$). -/
def eqNonEmptyTail : List Char → Bool
  | '=' :: r2 => !r2.isEmpty
  | _ => false

/-- Modelled from the spec: PATH grammar, regex ^\s*PATH\s*=\s*(.+?)\s*$. -/
def matchPathLine (l : List Char) : Bool :=
  let r := dropWs l
  if "PATH".data.isPrefixOf r then eqNonEmptyTail (dropWs (r.drop 4))
  else false

/-- Modelled from the spec: THEME grammar,
regex ^\s*ZSH_THEME\s*=\s*('|")(.*?)('|")\s*$ as a line test. -/
def matchThemeLine (l : List Char) : Bool :=
  let r := dropWs l
  if "ZSH_THEME".data.isPrefixOf r then
    match dropWs (r.drop 9) with
    | '=' :: r2 =>
      (match dropWs r2 with
       | q :: r4 =>
         isQuoteCh q &&
           (match dropWs r4.reverse with
            | q2 :: _ => isQuoteCh q2
            | [] => false)
       | [] => false)
    | _ => false
  else false

/-- Modelled from the spec: COMPLETION grammar, regex ^\s*compinit\s*$. -/
def matchCompletionLine (l : List Char) : Bool :=
  let r := dropWs l
  "compinit".data.isPrefixOf r && (dropWs (r.drop 8)).isEmpty

/-- Modelled from the spec: HISTORY grammar,
regex ^\s*(HIST[A-Z_]*)\s*=\s*(.+?)\s*$ as a line test. -/
def matchHistoryLine (l : List Char) : Bool :=
  let r := dropWs l
  if "HIST".data.isPrefixOf r then
    let u := (r.drop 4).takeWhile (fun c => isUpperAZ c || c = '_')
    eqNonEmptyTail (dropWs ((r.drop 4).drop u.length))
  else false

/-! ## Pattern counting and the logical-section builder (src/unnamed/part_004) -/

/-- `content.split(/\r?\n/)` scanning accumulator: each newline ends a
piece, dropping one carriage return immediately before it. -/
def splitLinesRN : List Char → List Char → List (List Char)
  | [], acc => [acc.reverse]
  | '\n' :: rest, acc =>
    (match acc with
     | '\r' :: a => a.reverse
     | _ => acc.reverse) :: splitLinesRN rest []
  | c :: rest, acc => splitLinesRN rest (c :: acc)

/-- The line list of a content string, as `content.split(/\r?\n/)`. -/
def linesOf (content : String) : List (List Char) := splitLinesRN content.data []

/-- `text.split("\n")` scanning accumulator (also the line decomposition
used by multiline-anchored regex matching). -/
def splitAtNl : List Char → List Char → List (List Char)
  | [], acc => [acc.reverse]
  | '\n' :: rest, acc => acc.reverse :: splitAtNl rest []
  | c :: rest, acc => splitAtNl rest (c :: acc)

/-- The newline-separated pieces of a text. -/
def nlLines (content : List Char) : List (List Char) := splitAtNl content []

/-- A line whose trimmed form is non-empty. -/
def isNonEmptyLine (l : List Char) : Bool := !(trimChars l).isEmpty

/-- `joined.split("\n").filter(line => line.trim().length > 0).length`. -/
def totalNonEmptyOf (content : List Char) : Nat :=
  (nlLines content).countP isNonEmptyLine

/-- The per-kind match counts of the pattern registry. -/
structure PatternCounts where
  aliases : Nat
  exports : Nat
  evals : Nat
  setopts : Nat
  plugins : Nat
  functions : Nat
  sources : Nat
  autoloads : Nat
  fpaths : Nat
  paths : Nat
  themes : Nat
  completions : Nat
  history : Nat
  keybindings : Nat
  deriving DecidableEq

/-- Modelled from the spec: AUTOLOAD grammar,
regex ^\s*autoload\s+(?:-Uz\s+)?([A-Za-z_][A-Za-z0-9_]*)\s*$ as a line
test. -/
def matchAutoloadLine (l : List Char) : Bool :=
  let r := dropWs l
  if "autoload".data.isPrefixOf r then
    match r.drop 8 with
    | c :: r1 =>
      isWs c &&
        (let r2 := dropWs r1
         let r3 :=
           if "-Uz".data.isPrefixOf r2 then
             match r2.drop 3 with
             | d :: _ => if isWs d then some (dropWs (r2.drop 3)) else none
             | [] => none
           else some r2
         match r3 with
         | some rest =>
           (match rest.takeWhile isIdentChar with
            | [] => false
            | v0 :: v =>
              isIdentStart v0 && (dropWs (rest.drop (v.length + 1))).isEmpty)
         | none => false)
    | [] => false
  else false

/-- Modelled from the spec: `countAllPatterns` of src/lib/pattern-registry.ts
is not in the corpus; per the spec it exposes per-kind counting functions
run over the joined text, and each count is the number of matches of that
kind's multiline-anchored grammar, i.e. the number of lines matching it. -/
def countAllPatterns (content : List Char) : PatternCounts :=
  let ls := nlLines content
  { aliases := ls.countP matchAliasLine
    exports := ls.countP matchExportLine
    evals := ls.countP matchEvalLine
    setopts := ls.countP matchSetoptLine
    plugins := ls.countP matchPluginsLine
    functions := ls.countP matchFunctionLine
    sources := ls.countP matchSourceLine
    autoloads := ls.countP matchAutoloadLine
    fpaths := ls.countP matchFpathLine
    paths := ls.countP matchPathLine
    themes := ls.countP matchThemeLine
    completions := ls.countP matchCompletionLine
    history := ls.countP matchHistoryLine
    keybindings := ls.countP matchKeybindingLine }

/-- A logical section (interface `LogicalSection`). -/
structure LogicalSection where
  label : String
  startLine : Nat
  endLine : Nat
  content : String
  aliasCount : Nat
  exportCount : Nat
  evalCount : Nat
  setoptCount : Nat
  pluginCount : Nat
  functionCount : Nat
  sourceCount : Nat
  autoloadCount : Nat
  fpathCount : Nat
  pathCount : Nat
  themeCount : Nat
  completionCount : Nat
  historyCount : Nat
  keybindingCount : Nat
  otherCount : Nat
  deriving DecidableEq

/-- `allPatternMatches` in `pushSection`: the sum of the fourteen typed
counts. -/
def sumTyped (c : PatternCounts) : Nat :=
  c.aliases + c.exports + c.evals + c.setopts + c.plugins + c.functions +
    c.sources + c.autoloads + c.fpaths + c.paths + c.themes + c.completions +
    c.history + c.keybindings

/-- The sum of the fourteen typed count fields of an emitted section. -/
def sumSectionTyped (s : LogicalSection) : Nat :=
  s.aliasCount + s.exportCount + s.evalCount + s.setoptCount + s.pluginCount +
    s.functionCount + s.sourceCount + s.autoloadCount + s.fpathCount +
    s.pathCount + s.themeCount + s.completionCount + s.historyCount +
    s.keybindingCount

/-- `pushSection` (src/unnamed/part_004, lines 494-548): drop ranges with
`end < start`; otherwise slice the lines, join with newlines, count entry
kinds over the joined text, and derive `otherCount` by truncated
subtraction (`Math.max(0, totalNonEmptyLines - allPatternMatches)`). -/
def pushSection (lines : List (List Char)) (start endL : Nat)
    (label : Option String) : Option LogicalSection :=
  if endL < start then none
  else
    let slice := (lines.drop (start - 1)).take (endL - (start - 1))
    let joined := List.intercalate ['\n'] slice
    let counts := countAllPatterns joined
    let labelText :=
      match label with
      | some s => if (trimChars s.data).isEmpty then "Unlabeled" else (trimChars s.data).asString
      | none => "Unlabeled"
    some
      { label := labelText
        startLine := start
        endLine := endL
        content := joined.asString
        aliasCount := counts.aliases
        exportCount := counts.exports
        evalCount := counts.evals
        setoptCount := counts.setopts
        pluginCount := counts.plugins
        functionCount := counts.functions
        sourceCount := counts.sources
        autoloadCount := counts.autoloads
        fpathCount := counts.fpaths
        pathCount := counts.paths
        themeCount := counts.themes
        completionCount := counts.completions
        historyCount := counts.history
        keybindingCount := counts.keybindings
        otherCount := totalNonEmptyOf joined - sumTyped counts }

/-- The scan state of `toLogicalSections`. -/
structure BuildState where
  sections : List LogicalSection
  currentLabel : Option String
  currentStart : Nat
  context : SectionContext
  deriving DecidableEq

/-- The marker kinds the builder closes a range on. -/
def endMarkerTypes : List SectionMarkerType :=
  [.custom_end, .dashed_end, .function_end]

/-- The marker kinds the builder opens a labeled range on. -/
def startMarkerTypes : List SectionMarkerType :=
  [.custom_start, .dashed_start, .bracketed, .hash, .labeled, .function_start]

/-- One iteration of the `toLogicalSections` loop at 0-based index `i`:
falsy (empty) lines are skipped; an end marker closes the pending range
before the marker line and clears the pending label; a start marker closes
the pending range and installs the marker's name as pending label; both
resume the next range at 1-based line `i + 2` and thread the context. -/
def scanStep (lines : List (List Char)) (st : BuildState) (i : Nat) : BuildState :=
  let raw := lines.getD i []
  if raw.isEmpty then st
  else
    match detectSectionMarker raw.asString (i + 1) with
    | none => st
    | some marker =>
      if endMarkerTypes.contains marker.type then
        { sections := st.sections ++ (pushSection lines st.currentStart i st.currentLabel).toList
          currentLabel := none
          currentStart := i + 2
          context := updateSectionContext marker st.context }
      else if startMarkerTypes.contains marker.type then
        { sections := st.sections ++ (pushSection lines st.currentStart i st.currentLabel).toList
          currentLabel := some marker.name
          currentStart := i + 2
          context := updateSectionContext marker st.context }
      else st

/-- Merge of two adjacent unlabeled sections: extend the range, concatenate
and trim the content, and add every count field. -/
def mergeTwo (a b : LogicalSection) : LogicalSection :=
  { a with
    endLine := b.endLine
    content := (trimChars (a.content.data ++ '\n' :: b.content.data)).asString
    aliasCount := a.aliasCount + b.aliasCount
    exportCount := a.exportCount + b.exportCount
    evalCount := a.evalCount + b.evalCount
    setoptCount := a.setoptCount + b.setoptCount
    pluginCount := a.pluginCount + b.pluginCount
    functionCount := a.functionCount + b.functionCount
    sourceCount := a.sourceCount + b.sourceCount
    autoloadCount := a.autoloadCount + b.autoloadCount
    fpathCount := a.fpathCount + b.fpathCount
    pathCount := a.pathCount + b.pathCount
    themeCount := a.themeCount + b.themeCount
    completionCount := a.completionCount + b.completionCount
    historyCount := a.historyCount + b.historyCount
    keybindingCount := a.keybindingCount + b.keybindingCount
    otherCount := a.otherCount + b.otherCount }

/-- One iteration of the merge pass: an unlabeled section following an
unlabeled section replaces the accumulated last element by the merge. -/
def mergeStep (acc : List LogicalSection) (s : LogicalSection) :
    List LogicalSection :=
  match acc.getLast? with
  | some last =>
    if last.label == "Unlabeled" && s.label == "Unlabeled" then
      acc.dropLast ++ [mergeTwo last s]
    else acc ++ [s]
  | none => acc ++ [s]

/-- `toLogicalSections` (src/unnamed/part_004, lines 478-615): split the
content into lines, run the marker-driven range scan, flush the trailing
range, then merge adjacent unlabeled sections. -/
def toLogicalSections (content : String) : List LogicalSection :=
  let lines := linesOf content
  let finalState :=
    (List.range lines.length).foldl (scanStep lines)
      { sections := [], currentLabel := none, currentStart := 1, context := initialContext }
  let withTail :=
    finalState.sections ++
      (pushSection lines finalState.currentStart lines.length finalState.currentLabel).toList
  withTail.foldl mergeStep []

/-- The first two characters after leading whitespace: each entry grammar
pins them down, which makes the grammars pairwise exclusive on a line. -/
def take2Key (l : List Char) : List Char := (dropWs l).take 2

/-- The fourteen typed grammars' contributions of one line to the pattern
counts. -/
def typedLineCount (l : List Char) : Nat :=
  (if matchAliasLine l then 1 else 0) + (if matchExportLine l then 1 else 0)
    + (if matchEvalLine l then 1 else 0) + (if matchSetoptLine l then 1 else 0)
    + (if matchPluginsLine l then 1 else 0) + (if matchFunctionLine l then 1 else 0)
    + (if matchSourceLine l then 1 else 0) + (if matchAutoloadLine l then 1 else 0)
    + (if matchFpathLine l then 1 else 0) + (if matchPathLine l then 1 else 0)
    + (if matchThemeLine l then 1 else 0) + (if matchCompletionLine l then 1 else 0)
    + (if matchHistoryLine l then 1 else 0) + (if matchKeybindingLine l then 1 else 0)

/-- The thirteen non-function entry grammars, each with the possible
`take2Key` values of a matching line. -/
def typedMatchers : List ((List Char → Bool) × List (List Char)) :=
  [(matchAliasLine, [['a', 'l']]),
   (matchExportLine, [['e', 'x'], ['t', 'y']]),
   (matchEvalLine, [['e', 'v']]),
   (matchSetoptLine, [['s', 'e']]),
   (matchPluginsLine, [['p', 'l']]),
   (matchSourceLine, [['s', 'o']]),
   (matchAutoloadLine, [['a', 'u']]),
   (matchFpathLine, [['f', 'p']]),
   (matchPathLine, [['P', 'A']]),
   (matchThemeLine, [['Z', 'S']]),
   (matchCompletionLine, [['c', 'o']]),
   (matchHistoryLine, [['H', 'I']]),
   (matchKeybindingLine, [['b', 'i']])]

/-- The count-consistency property of an emitted section: the fourteen typed
counts plus `otherCount` add up to the number of non-empty lines of the
section's content. -/
def sectionBalanced (s : LogicalSection) : Prop :=
  sumSectionTyped s + s.otherCount = totalNonEmptyOf s.content.data

/-! ## Theorems -/

/-- The documented invariant of `SectionContext`: the current section is the
last element of the stack, or undefined when the stack is empty. -/
def contextInvariant (c : SectionContext) : Prop :=
  c.currentSection = c.sectionStack.getLast?

theorem trimChars_of_all_ws {l : List Char} (h : l.all isWs = true) :
    trimChars l = [] := by
  have hd : l.dropWhile isWs = [] := by
    rw [List.dropWhile_eq_nil_iff]
    intro a ha
    exact List.all_eq_true.mp h a ha
  simp [trimChars, hd]

/-- C2.  `detectSectionMarker` evaluates the marker grammars in the fixed
priority order custom_start, custom_end, dashed_end, dashed_start,
bracketed, hash, function_start, function_end, labeled (the order of
`markerRank`), returns a marker of the first grammar matching the trimmed
line — carrying the trimmed captured name, the line number, the original
line and the grammar's priority — with every earlier grammar failing, and
returns null exactly when no grammar matches; in particular whitespace-only
lines yield null. -/
theorem detectSectionMarker_first_match (line : String) (n : Nat) :
    (detectSectionMarker line n = none ↔
      ∀ t : SectionMarkerType, matcherOf t (trimChars line.data) = none)
    ∧ (∀ m : SectionMarker, detectSectionMarker line n = some m →
        (∃ cap, matcherOf m.type (trimChars line.data) = some cap ∧
          m = ⟨m.type, (trimChars cap).asString, n, line, markerPriority m.type⟩)
        ∧ ∀ t : SectionMarkerType, markerRank t < markerRank m.type →
            matcherOf t (trimChars line.data) = none)
    ∧ (line.data.all isWs = true → detectSectionMarker line n = none) := by
  cases h0 : matchCustomStart (trimChars line.data) with
  | some cap =>
    have hd : detectSectionMarker line n
        = some ⟨.custom_start, (trimChars cap).asString, n, line,
            markerPriority .custom_start⟩ := by
      simp only [detectSectionMarker, markerFormats, detectFrom, h0]
    refine ⟨⟨fun h => (Option.noConfusion (hd ▸ h)),
      fun hall => absurd (hall .custom_start) (by simp [matcherOf, h0])⟩, ?_, ?_⟩
    · intro m hm
      rw [hd] at hm
      obtain rfl := (Option.some.inj hm).symm
      refine ⟨⟨cap, h0, rfl⟩, ?_⟩
      intro t ht
      replace ht : markerRank t < markerRank SectionMarkerType.custom_start := ht
      cases t <;> exact absurd ht (by decide)
    · intro hws
      have : trimChars line.data = [] := trimChars_of_all_ws hws
      rw [this, show matchCustomStart ([] : List Char) = none from rfl] at h0
      exact Option.noConfusion h0
  | none =>
  cases h1 : matchCustomEnd (trimChars line.data) with
  | some cap =>
    have hd : detectSectionMarker line n
        = some ⟨.custom_end, (trimChars cap).asString, n, line,
            markerPriority .custom_end⟩ := by
      simp only [detectSectionMarker, markerFormats, detectFrom, h0, h1]
    refine ⟨⟨fun h => (Option.noConfusion (hd ▸ h)),
      fun hall => absurd (hall .custom_end) (by simp [matcherOf, h1])⟩, ?_, ?_⟩
    · intro m hm
      rw [hd] at hm
      obtain rfl := (Option.some.inj hm).symm
      refine ⟨⟨cap, h1, rfl⟩, ?_⟩
      intro t ht
      replace ht : markerRank t < markerRank SectionMarkerType.custom_end := ht
      cases t <;> first
        | exact h0
        | exact absurd ht (by decide)
    · intro hws
      have : trimChars line.data = [] := trimChars_of_all_ws hws
      rw [this, show matchCustomEnd ([] : List Char) = none from rfl] at h1
      exact Option.noConfusion h1
  | none =>
  cases h2 : matchDashedEnd (trimChars line.data) with
  | some cap =>
    have hd : detectSectionMarker line n
        = some ⟨.dashed_end, (trimChars cap).asString, n, line,
            markerPriority .dashed_end⟩ := by
      simp only [detectSectionMarker, markerFormats, detectFrom, h0, h1, h2]
    refine ⟨⟨fun h => (Option.noConfusion (hd ▸ h)),
      fun hall => absurd (hall .dashed_end) (by simp [matcherOf, h2])⟩, ?_, ?_⟩
    · intro m hm
      rw [hd] at hm
      obtain rfl := (Option.some.inj hm).symm
      refine ⟨⟨cap, h2, rfl⟩, ?_⟩
      intro t ht
      replace ht : markerRank t < markerRank SectionMarkerType.dashed_end := ht
      cases t <;> first
        | exact h0
        | exact h1
        | exact absurd ht (by decide)
    · intro hws
      have : trimChars line.data = [] := trimChars_of_all_ws hws
      rw [this, show matchDashedEnd ([] : List Char) = none from rfl] at h2
      exact Option.noConfusion h2
  | none =>
  cases h3 : matchDashedStart (trimChars line.data) with
  | some cap =>
    have hd : detectSectionMarker line n
        = some ⟨.dashed_start, (trimChars cap).asString, n, line,
            markerPriority .dashed_start⟩ := by
      simp only [detectSectionMarker, markerFormats, detectFrom, h0, h1, h2, h3]
    refine ⟨⟨fun h => (Option.noConfusion (hd ▸ h)),
      fun hall => absurd (hall .dashed_start) (by simp [matcherOf, h3])⟩, ?_, ?_⟩
    · intro m hm
      rw [hd] at hm
      obtain rfl := (Option.some.inj hm).symm
      refine ⟨⟨cap, h3, rfl⟩, ?_⟩
      intro t ht
      replace ht : markerRank t < markerRank SectionMarkerType.dashed_start := ht
      cases t <;> first
        | exact h0
        | exact h1
        | exact h2
        | exact absurd ht (by decide)
    · intro hws
      have : trimChars line.data = [] := trimChars_of_all_ws hws
      rw [this, show matchDashedStart ([] : List Char) = none from rfl] at h3
      exact Option.noConfusion h3
  | none =>
  cases h4 : matchBracketed (trimChars line.data) with
  | some cap =>
    have hd : detectSectionMarker line n
        = some ⟨.bracketed, (trimChars cap).asString, n, line,
            markerPriority .bracketed⟩ := by
      simp only [detectSectionMarker, markerFormats, detectFrom, h0, h1, h2, h3, h4]
    refine ⟨⟨fun h => (Option.noConfusion (hd ▸ h)),
      fun hall => absurd (hall .bracketed) (by simp [matcherOf, h4])⟩, ?_, ?_⟩
    · intro m hm
      rw [hd] at hm
      obtain rfl := (Option.some.inj hm).symm
      refine ⟨⟨cap, h4, rfl⟩, ?_⟩
      intro t ht
      replace ht : markerRank t < markerRank SectionMarkerType.bracketed := ht
      cases t <;> first
        | exact h0
        | exact h1
        | exact h2
        | exact h3
        | exact absurd ht (by decide)
    · intro hws
      have : trimChars line.data = [] := trimChars_of_all_ws hws
      rw [this, show matchBracketed ([] : List Char) = none from rfl] at h4
      exact Option.noConfusion h4
  | none =>
  cases h5 : matchHash (trimChars line.data) with
  | some cap =>
    have hd : detectSectionMarker line n
        = some ⟨.hash, (trimChars cap).asString, n, line,
            markerPriority .hash⟩ := by
      simp only [detectSectionMarker, markerFormats, detectFrom, h0, h1, h2, h3, h4, h5]
    refine ⟨⟨fun h => (Option.noConfusion (hd ▸ h)),
      fun hall => absurd (hall .hash) (by simp [matcherOf, h5])⟩, ?_, ?_⟩
    · intro m hm
      rw [hd] at hm
      obtain rfl := (Option.some.inj hm).symm
      refine ⟨⟨cap, h5, rfl⟩, ?_⟩
      intro t ht
      replace ht : markerRank t < markerRank SectionMarkerType.hash := ht
      cases t <;> first
        | exact h0
        | exact h1
        | exact h2
        | exact h3
        | exact h4
        | exact absurd ht (by decide)
    · intro hws
      have : trimChars line.data = [] := trimChars_of_all_ws hws
      rw [this, show matchHash ([] : List Char) = none from rfl] at h5
      exact Option.noConfusion h5
  | none =>
  cases h6 : functionNameOf (trimChars line.data) with
  | some cap =>
    have hd : detectSectionMarker line n
        = some ⟨.function_start, (trimChars cap).asString, n, line,
            markerPriority .function_start⟩ := by
      simp only [detectSectionMarker, markerFormats, detectFrom, h0, h1, h2, h3, h4, h5, h6]
    refine ⟨⟨fun h => (Option.noConfusion (hd ▸ h)),
      fun hall => absurd (hall .function_start) (by simp [matcherOf, h6])⟩, ?_, ?_⟩
    · intro m hm
      rw [hd] at hm
      obtain rfl := (Option.some.inj hm).symm
      refine ⟨⟨cap, h6, rfl⟩, ?_⟩
      intro t ht
      replace ht : markerRank t < markerRank SectionMarkerType.function_start := ht
      cases t <;> first
        | exact h0
        | exact h1
        | exact h2
        | exact h3
        | exact h4
        | exact h5
        | exact absurd ht (by decide)
    · intro hws
      have : trimChars line.data = [] := trimChars_of_all_ws hws
      rw [this, show functionNameOf ([] : List Char) = none from rfl] at h6
      exact Option.noConfusion h6
  | none =>
  cases h7 : matchFunctionEnd (trimChars line.data) with
  | some cap =>
    have hd : detectSectionMarker line n
        = some ⟨.function_end, (trimChars cap).asString, n, line,
            markerPriority .function_end⟩ := by
      simp only [detectSectionMarker, markerFormats, detectFrom, h0, h1, h2, h3, h4, h5, h6, h7]
    refine ⟨⟨fun h => (Option.noConfusion (hd ▸ h)),
      fun hall => absurd (hall .function_end) (by simp [matcherOf, h7])⟩, ?_, ?_⟩
    · intro m hm
      rw [hd] at hm
      obtain rfl := (Option.some.inj hm).symm
      refine ⟨⟨cap, h7, rfl⟩, ?_⟩
      intro t ht
      replace ht : markerRank t < markerRank SectionMarkerType.function_end := ht
      cases t <;> first
        | exact h0
        | exact h1
        | exact h2
        | exact h3
        | exact h4
        | exact h5
        | exact h6
        | exact absurd ht (by decide)
    · intro hws
      have : trimChars line.data = [] := trimChars_of_all_ws hws
      rw [this, show matchFunctionEnd ([] : List Char) = none from rfl] at h7
      exact Option.noConfusion h7
  | none =>
  cases h8 : matchLabeled (trimChars line.data) with
  | some cap =>
    have hd : detectSectionMarker line n
        = some ⟨.labeled, (trimChars cap).asString, n, line,
            markerPriority .labeled⟩ := by
      simp only [detectSectionMarker, markerFormats, detectFrom, h0, h1, h2, h3, h4, h5, h6, h7, h8]
    refine ⟨⟨fun h => (Option.noConfusion (hd ▸ h)),
      fun hall => absurd (hall .labeled) (by simp [matcherOf, h8])⟩, ?_, ?_⟩
    · intro m hm
      rw [hd] at hm
      obtain rfl := (Option.some.inj hm).symm
      refine ⟨⟨cap, h8, rfl⟩, ?_⟩
      intro t ht
      replace ht : markerRank t < markerRank SectionMarkerType.labeled := ht
      cases t <;> first
        | exact h0
        | exact h1
        | exact h2
        | exact h3
        | exact h4
        | exact h5
        | exact h6
        | exact h7
        | exact absurd ht (by decide)
    · intro hws
      have : trimChars line.data = [] := trimChars_of_all_ws hws
      rw [this, show matchLabeled ([] : List Char) = none from rfl] at h8
      exact Option.noConfusion h8
  | none =>
    have hd : detectSectionMarker line n = none := by
      simp only [detectSectionMarker, markerFormats, detectFrom, h0, h1, h2, h3, h4, h5, h6, h7, h8]
    refine ⟨⟨fun _ => ?_, fun _ => hd⟩, ?_, fun _ => hd⟩
    · intro t
      cases t <;> assumption
    · intro m hm
      rw [hd] at hm
      exact Option.noConfusion hm

/-- C2 witness: on the line `## Docker Configuration`, the detector returns
the hash marker with the captured heading, and the earlier bracketed
grammar does not match. -/
theorem detectSectionMarker_first_match_witness :
    detectSectionMarker "## Docker Configuration" 1
      = some ⟨.hash, "Docker Configuration", 1, "## Docker Configuration", 4⟩
    ∧ matcherOf .bracketed (trimChars ("## Docker Configuration").data) = none := by
  have hsome : detectSectionMarker "## Docker Configuration" 1
      = some ⟨.hash, "Docker Configuration", 1, "## Docker Configuration", 4⟩ := by
    decide
  exact ⟨hsome,
    ((detectSectionMarker_first_match "## Docker Configuration" 1).2.1 _ hsome).2
      .bracketed (by decide)⟩

/-- C5.  An end-like marker (custom_end or dashed_end) pops the stack
unconditionally: the result drops the last stack entry and sets the current
section to the new stack top (or undefined when the stack is or becomes
empty), independently of the marker's name and without any exception; the
function level is untouched. -/
theorem endMarker_pops_unconditionally (m : SectionMarker) (ctx : SectionContext)
    (h : m.type = SectionMarkerType.custom_end ∨ m.type = SectionMarkerType.dashed_end) :
    updateSectionContext m ctx =
      { currentSection := ctx.sectionStack.dropLast.getLast?
        sectionStack := ctx.sectionStack.dropLast
        functionLevel := ctx.functionLevel } := by
  rcases h with h | h <;>
    · unfold updateSectionContext
      rw [h]

/-- C5 witness: a custom_end marker whose name matches nothing on an empty
stack leaves the stack empty and the current section undefined, without
error. -/
theorem endMarker_pops_witness :
    updateSectionContext ⟨.custom_end, "Mismatched", 7, "# @end Mismatched", 8⟩
        ⟨some "Python", ["Python"], 2⟩
      = ⟨none, [], 2⟩
    ∧ updateSectionContext ⟨.custom_end, "Anything", 9, "# @end Anything", 8⟩
        ⟨none, [], 5⟩
      = ⟨none, [], 5⟩ := by
  constructor
  · have := endMarker_pops_unconditionally
      ⟨.custom_end, "Mismatched", 7, "# @end Mismatched", 8⟩
      ⟨some "Python", ["Python"], 2⟩ (Or.inl rfl)
    simpa using this
  · have := endMarker_pops_unconditionally
      ⟨.custom_end, "Anything", 9, "# @end Anything", 8⟩
      ⟨none, [], 5⟩ (Or.inl rfl)
    simpa using this

/-- C6.  The invariant "currentSection equals the stack's last element, or
undefined when the stack is empty" holds of the initial context and is
preserved by `updateSectionContext` for every marker. -/
theorem sectionContext_invariant :
    contextInvariant initialContext
    ∧ ∀ (m : SectionMarker) (ctx : SectionContext),
        contextInvariant ctx → contextInvariant (updateSectionContext m ctx) := by
  refine ⟨rfl, ?_⟩
  intro m ctx h
  unfold contextInvariant at h ⊢
  unfold updateSectionContext
  cases m.type with
  | custom_start => simp
  | dashed_start => simp
  | bracketed => simp
  | hash => simp
  | labeled => simp
  | custom_end => simp
  | dashed_end => simp
  | function_start =>
    dsimp only
    split
    · simp
    · exact h
  | function_end =>
    dsimp only
    split
    · rfl
    · exact h

/-- C6 witness: pushing a bracketed marker onto the empty initial context
preserves the invariant. -/
theorem sectionContext_invariant_witness :
    contextInvariant
      (updateSectionContext ⟨.bracketed, "Tools", 4, "# [Tools]", 5⟩ initialContext) :=
  sectionContext_invariant.2 ⟨.bracketed, "Tools", 4, "# [Tools]", 5⟩
    initialContext rfl

/-- The empty name satisfies no descriptive-name pattern. -/
theorem isDescriptiveFunctionName_empty : isDescriptiveFunctionName "" = false := by
  decide

/-- C7.  A function_start marker increments `functionLevel` by one; when the
captured name satisfies the descriptive-name heuristic — the disjunction of
the all-letters, snake_case, camelCase and verb-prefixed patterns — the
string `Function: name` is additionally pushed and becomes the current
section; otherwise stack and current section are untouched. -/
theorem functionStart_update (m : SectionMarker) (ctx : SectionContext)
    (h : m.type = SectionMarkerType.function_start) :
    (updateSectionContext m ctx).functionLevel = ctx.functionLevel + 1
    ∧ (isDescriptiveFunctionName m.name = true →
        (updateSectionContext m ctx).sectionStack
            = ctx.sectionStack ++ ["Function: " ++ m.name]
          ∧ (updateSectionContext m ctx).currentSection
            = some ("Function: " ++ m.name))
    ∧ (isDescriptiveFunctionName m.name = false →
        (updateSectionContext m ctx).sectionStack = ctx.sectionStack
          ∧ (updateSectionContext m ctx).currentSection = ctx.currentSection)
    ∧ isDescriptiveFunctionName m.name
        = (patAllLetters m.name.data
            || (patSnakeCase m.name.data
              || (patCamelCase m.name.data || patVerbStart m.name.data))) := by
  have hdis : isDescriptiveFunctionName m.name
      = (patAllLetters m.name.data
          || (patSnakeCase m.name.data
            || (patCamelCase m.name.data || patVerbStart m.name.data))) := by
    simp [isDescriptiveFunctionName]
  by_cases hd : isDescriptiveFunctionName m.name = true
  · have hne : (m.name != "") = true := by
      by_cases he : m.name = ""
      · rw [he] at hd
        rw [isDescriptiveFunctionName_empty] at hd
        exact Bool.noConfusion hd
      · simp [he]
    have hu : updateSectionContext m ctx =
        { currentSection := some ("Function: " ++ m.name)
          sectionStack := ctx.sectionStack ++ ["Function: " ++ m.name]
          functionLevel := ctx.functionLevel + 1 } := by
      unfold updateSectionContext
      rw [h]
      dsimp only
      rw [if_pos (by rw [hne, hd]; rfl)]
    refine ⟨?_, ?_, ?_, hdis⟩
    · rw [hu]
    · intro _
      rw [hu]
      exact ⟨rfl, rfl⟩
    · intro hf
      rw [hd] at hf
      exact Bool.noConfusion hf
  · have hd' : isDescriptiveFunctionName m.name = false := by
      simpa using hd
    have hu : updateSectionContext m ctx =
        { ctx with functionLevel := ctx.functionLevel + 1 } := by
      unfold updateSectionContext
      rw [h]
      dsimp only
      rw [if_neg (by rw [hd']; simp)]
    refine ⟨?_, ?_, ?_, hdis⟩
    · rw [hu]
    · intro ht
      rw [hd'] at ht
      exact Bool.noConfusion ht
    · intro _
      rw [hu]
      exact ⟨rfl, rfl⟩

/-- C7 witness: `setup_python_env` is descriptive, so it increments the
level and is pushed as `Function: setup_python_env`; the single letter `f`
is not, so only the level changes. -/
theorem functionStart_update_witness :
    (updateSectionContext
        ⟨.function_start, "setup_python_env", 1, "setup_python_env() \x7b", 3⟩
        initialContext).functionLevel = 0 + 1
    ∧ (updateSectionContext
        ⟨.function_start, "setup_python_env", 1, "setup_python_env() \x7b", 3⟩
        initialContext).sectionStack = [] ++ ["Function: " ++ "setup_python_env"]
    ∧ (updateSectionContext ⟨.function_start, "f", 1, "f() \x7b", 3⟩
        initialContext).sectionStack = [] := by
  have h1 := functionStart_update
    ⟨.function_start, "setup_python_env", 1, "setup_python_env() \x7b", 3⟩
    initialContext rfl
  have h2 := functionStart_update ⟨.function_start, "f", 1, "f() \x7b", 3⟩
    initialContext rfl
  exact ⟨h1.1, (h1.2.1 (by decide)).1, (h2.2.2.1 (by decide)).1⟩

/-- C9.  A function_end marker decrements `functionLevel` by exactly one
with no clamping — level 0 becomes -1 with nothing else changed — and the
`Function:` section pop happens exactly when the decremented level is 0 and
the current section carries the `Function:` tag, never for negative or
positive resulting levels. -/
theorem functionEnd_update (m : SectionMarker) (ctx : SectionContext)
    (h : m.type = SectionMarkerType.function_end) :
    (updateSectionContext m ctx).functionLevel = ctx.functionLevel - 1
    ∧ (ctx.functionLevel = 0 →
        updateSectionContext m ctx = { ctx with functionLevel := -1 })
    ∧ ((ctx.functionLevel - 1 = 0
          ∧ currentIsFunctionSection ctx.currentSection = true) →
        updateSectionContext m ctx =
          { currentSection := ctx.sectionStack.dropLast.getLast?
            sectionStack := ctx.sectionStack.dropLast
            functionLevel := ctx.functionLevel - 1 })
    ∧ (¬(ctx.functionLevel - 1 = 0
          ∧ currentIsFunctionSection ctx.currentSection = true) →
        updateSectionContext m ctx = { ctx with functionLevel := ctx.functionLevel - 1 }) := by
  unfold updateSectionContext
  rw [h]
  by_cases hc : (ctx.functionLevel - 1 == 0
      && currentIsFunctionSection ctx.currentSection) = true
  · rw [if_pos hc]
    rw [Bool.and_eq_true, beq_iff_eq] at hc
    refine ⟨rfl, ?_, fun _ => rfl, fun hn => absurd hc hn⟩
    intro h0
    rw [h0] at hc
    exact absurd hc.1 (by decide)
  · rw [if_neg hc]
    rw [Bool.and_eq_true, beq_iff_eq] at hc
    refine ⟨rfl, ?_, fun hp => absurd hp hc, fun _ => rfl⟩
    intro h0
    rw [h0]
    rfl

/-- C9 witness: a stray closing brace on the initial context drives the
level to -1 and touches nothing else. -/
theorem functionEnd_update_witness :
    updateSectionContext ⟨.function_end, "", 9, "\x7d", 2⟩ initialContext
      = { currentSection := none, sectionStack := [], functionLevel := -1 } := by
  have h := functionEnd_update ⟨.function_end, "", 9, "\x7d", 2⟩ initialContext rfl
  simpa using h.2.1 rfl

/-- C3 counterexample: `updateSectionContext` is not pure in its input.  On
the empty context, a custom_start marker named `A` leaves the caller's
context object with stack contents `[A]` — the spread-copied stack array is
shared and mutated by the push — so the input is not unchanged. -/
theorem updateSectionContext_mutates_input :
    inputAfterUpdate ⟨.custom_start, "A", 1, "# @start A", 9⟩ ⟨none, [], 0⟩
      ≠ ⟨none, [], 0⟩
    ∧ (inputAfterUpdate ⟨.custom_start, "A", 1, "# @start A", 9⟩
        ⟨none, [], 0⟩).sectionStack = ["A"] := by
  constructor
  · intro heq
    have := congrArg SectionContext.sectionStack heq
    simp [inputAfterUpdate, updateSectionContext] at this
  · rfl

/-- C3 amended.  After `updateSectionContext`, the caller's context keeps
its own `currentSection` and `functionLevel` fields, but its `sectionStack`
array is the one shared with the returned context and holds the returned
context's stack contents; the input is left fully unchanged exactly when
the marker causes no stack mutation. -/
theorem updateSectionContext_aliasing (m : SectionMarker) (ctx : SectionContext) :
    (inputAfterUpdate m ctx).currentSection = ctx.currentSection
    ∧ (inputAfterUpdate m ctx).functionLevel = ctx.functionLevel
    ∧ (inputAfterUpdate m ctx).sectionStack = (updateSectionContext m ctx).sectionStack
    ∧ (inputAfterUpdate m ctx = ctx ↔
        (updateSectionContext m ctx).sectionStack = ctx.sectionStack) := by
  refine ⟨rfl, rfl, rfl, ?_, ?_⟩
  · intro h
    have h2 := congrArg SectionContext.sectionStack h
    exact h2
  · intro h
    unfold inputAfterUpdate
    rw [h]

/-- C4 counterexample: a custom end pattern with zero capture groups is not
rejected.  With start/end patterns enabled and `customEndPattern = "end"`
(which `hasCaptureGroup` counts zero groups in), `getCustomPatterns`
compiles and installs the anchored end pattern and logs nothing. -/
theorem customEndPattern_not_validated :
    (getCustomPatterns (fun _ => true)
        ⟨true, false, none, true, none, some "end"⟩).1.endPattern = some "^end"
    ∧ (getCustomPatterns (fun _ => true)
        ⟨true, false, none, true, none, some "end"⟩).2 = []
    ∧ countCaptureGroups ("end".data) = 0 := by
  refine ⟨?_, ?_, ?_⟩ <;> decide

/-- C4 amended.  Only the header and start custom patterns are validated to
contain exactly one capture group: an invalid header pattern is rejected
with a logged diagnostic; an invalid start pattern is rejected silently
(the warning output is the same as with no start pattern configured at
all); the end pattern is never capture-group-validated — whenever start/end
patterns are enabled and the end pattern is non-empty it goes straight to
compilation.  Validation is a total function and never throws. -/
theorem getCustomPatterns_validation (rc : String → Bool) (prefs : SectionPrefs) :
    (prefs.enableCustomHeaderPattern = true →
      truthyStr prefs.customHeaderPattern = true →
      hasCaptureGroup (prefs.customHeaderPattern.getD "") = false →
        (getCustomPatterns rc prefs).1.headerPattern = none
        ∧ "Custom header pattern must contain exactly one capture group"
            ∈ (getCustomPatterns rc prefs).2)
    ∧ (hasCaptureGroup (prefs.customStartPattern.getD "") = false →
        (getCustomPatterns rc prefs).1.startPattern = none
        ∧ (getCustomPatterns rc prefs).2
            = (getCustomPatterns rc { prefs with customStartPattern := none }).2)
    ∧ (prefs.enableCustomStartEndPatterns = true →
        truthyStr prefs.customEndPattern = true →
        (getCustomPatterns rc prefs).1.endPattern
          = (compilePattern rc prefs.customEndPattern "end").1) := by
  refine ⟨?_, ?_, ?_⟩
  · intro he ht hc
    simp [getCustomPatterns, he, ht, hc]
  · intro hc
    constructor
    · simp [getCustomPatterns, hc]
    · simp [getCustomPatterns, hc, truthyStr]
  · intro he ht
    simp [getCustomPatterns, he, ht]

/-- C4 amended witness: with header pattern `abc` (zero groups), start
pattern `(a)(b)` (two groups) and end pattern `x` (zero groups) all
enabled, the header is rejected with the logged diagnostic, the start is
rejected with no diagnostic, and the end pattern is compiled anyway. -/
theorem getCustomPatterns_validation_witness :
    ((getCustomPatterns (fun _ => true)
        ⟨true, true, some "abc", true, some "(a)(b)", some "x"⟩).1.headerPattern = none
      ∧ "Custom header pattern must contain exactly one capture group"
          ∈ (getCustomPatterns (fun _ => true)
              ⟨true, true, some "abc", true, some "(a)(b)", some "x"⟩).2)
    ∧ ((getCustomPatterns (fun _ => true)
        ⟨true, true, some "abc", true, some "(a)(b)", some "x"⟩).1.startPattern = none
      ∧ (getCustomPatterns (fun _ => true)
            ⟨true, true, some "abc", true, some "(a)(b)", some "x"⟩).2
          = (getCustomPatterns (fun _ => true)
              ⟨true, true, some "abc", true, none, some "x"⟩).2)
    ∧ (getCustomPatterns (fun _ => true)
        ⟨true, true, some "abc", true, some "(a)(b)", some "x"⟩).1.endPattern
      = (compilePattern (fun _ => true) (some "x") "end").1 := by
  have h := getCustomPatterns_validation (fun _ => true)
    ⟨true, true, some "abc", true, some "(a)(b)", some "x"⟩
  exact ⟨h.1 rfl (by decide) (by decide), h.2.1 (by decide), h.2.2 rfl (by decide)⟩

/-- The five-line example of the spec's testable properties. -/
def exampleContent : String :=
  "# --- Python Environment --- #\nalias py=\"python3\"\n# --- End Python Environment --- #\n# [Node.js Tools]\nexport NODE_PATH=/usr/local/lib/node_modules"

/-- C1 counterexample: on the five-line example, `toLogicalSections` does
return two sections with the specified labels and counts, but the marker
lines are excluded from the ranges: the first section spans lines 2-2 (not
1-3) and the second spans lines 5-5 (not 4-5). -/
theorem exampleSections_not_as_specified :
    (toLogicalSections exampleContent).map
        (fun s => (s.label, s.startLine, s.endLine, s.aliasCount, s.exportCount))
      = [("Python Environment", 2, 2, 1, 0), ("Node.js Tools", 5, 5, 0, 1)]
    ∧ ¬∃ s1 s2, toLogicalSections exampleContent = [s1, s2]
        ∧ s1.startLine = 1 ∧ s1.endLine = 3 ∧ s2.startLine = 4 ∧ s2.endLine = 5 := by
  constructor
  · decide
  · rintro ⟨s1, s2, heq, hs1, -, -, -⟩
    have h3 := congrArg (List.map (fun s => s.startLine)) heq
    rw [show (toLogicalSections exampleContent).map (fun s => s.startLine) = [2, 5]
      from by decide] at h3
    have h4 : s1.startLine = 2 := (List.cons.injEq _ _ _ _).mp h3.symm |>.1
    rw [hs1] at h4
    exact absurd h4 (by decide)

/-- C1 amended: the five-line example yields exactly the two sections
`Python Environment` (lines 2-2, the alias line, aliasCount 1) and
`Node.js Tools` (lines 5-5, the export line, exportCount 1). -/
theorem exampleSections_amended :
    toLogicalSections exampleContent
      = [⟨"Python Environment", 2, 2, "alias py=\"python3\"",
          1, 0, 0, 0, 0, 0, 0, 0, 0, 0, 0, 0, 0, 0, 0⟩,
         ⟨"Node.js Tools", 5, 5, "export NODE_PATH=/usr/local/lib/node_modules",
          0, 1, 0, 0, 0, 0, 0, 0, 0, 0, 0, 0, 0, 0, 0⟩] := by
  decide

/-- A file whose first line is a bare closing brace and whose second line
holds an alias. -/
def braceContent : String := "\x7d\nalias a=\"b\""

/-- C10 counterexample: the brace line (line 1) is handled as an end marker,
but the next range begins on line 2 — the line immediately after the brace
— not two lines past it (line 3): the emitted unlabeled section is 2-2,
and no section starts at line 3. -/
theorem braceSection_starts_line_after :
    (toLogicalSections braceContent).map (fun s => (s.label, s.startLine, s.endLine))
      = [("Unlabeled", 2, 2)]
    ∧ ¬((toLogicalSections braceContent).map (fun s => s.startLine) = [1 + 2]) := by
  constructor
  · decide
  · intro h
    rw [show (toLogicalSections braceContent).map (fun s => s.startLine) = [2]
      from by decide] at h
    exact absurd h (by decide)

/-- C10 amended.  In the builder's scan, a function_end marker is treated as
a range-closing end marker exactly like custom_end and dashed_end: the open
range is closed at the line before the marker, emitted under the pending
label, the pending label is reset, the next range starts on the line
immediately after the marker line (1-based line `i + 2` for 0-based index
`i`), and the context is threaded through `updateSectionContext`. -/
theorem endMarker_scanStep (lines : List (List Char)) (st : BuildState) (i : Nat)
    (m : SectionMarker)
    (hraw : (lines.getD i []).isEmpty = false)
    (hm : detectSectionMarker (lines.getD i []).asString (i + 1) = some m)
    (ht : m.type = SectionMarkerType.custom_end ∨ m.type = SectionMarkerType.dashed_end
        ∨ m.type = SectionMarkerType.function_end) :
    scanStep lines st i =
      { sections := st.sections ++ (pushSection lines st.currentStart i st.currentLabel).toList
        currentLabel := none
        currentStart := i + 2
        context := updateSectionContext m st.context } := by
  have hc : endMarkerTypes.contains m.type = true := by
    rcases ht with h | h | h <;> rw [h] <;> decide
  simp only [scanStep, hraw, Bool.false_eq_true, if_false, hm, hc, if_true]

/-- C10 amended witness: on the brace-then-alias file, scanning index 0
(the bare brace) closes the empty pending range, clears the label, resumes
at line 2 and decrements the function level. -/
theorem endMarker_scanStep_witness :
    scanStep (linesOf braceContent)
        { sections := [], currentLabel := none, currentStart := 1, context := initialContext } 0
      = { sections := [], currentLabel := none, currentStart := 2,
          context := { currentSection := none, sectionStack := [], functionLevel := -1 } } := by
  have h := endMarker_scanStep (linesOf braceContent)
    { sections := [], currentLabel := none, currentStart := 1, context := initialContext } 0
    ⟨.function_end, "", 1, "\x7d", 2⟩ (by decide) (by decide) (Or.inr (Or.inr rfl))
  rw [h]
  decide

/-! ### Newline-splitting toolkit -/

theorem splitAtNl_nil (acc : List Char) : splitAtNl [] acc = [acc.reverse] := rfl

theorem splitAtNl_nl (rest : List Char) (acc : List Char) :
    splitAtNl ('\n' :: rest) acc = acc.reverse :: splitAtNl rest [] := rfl

theorem splitAtNl_cons_ne {c : Char} (hc : c ≠ '\n') (rest acc : List Char) :
    splitAtNl (c :: rest) acc = splitAtNl rest (c :: acc) := by
  conv_lhs => unfold splitAtNl
  split
  · rename_i heq
    exact absurd heq (by simp)
  · rename_i rest2 heq
    obtain ⟨h1, -⟩ := List.cons_eq_cons.mp heq
    exact absurd h1 hc
  · rename_i c2 rest2 hne heq
    obtain ⟨h1, h2⟩ := List.cons_eq_cons.mp heq
    rw [← h1, ← h2]

theorem splitAtNl_ne_nil (z acc : List Char) : splitAtNl z acc ≠ [] := by
  induction z generalizing acc with
  | nil => simp [splitAtNl_nil]
  | cons c rest ih =>
    by_cases hc : c = '\n'
    · subst hc
      simp [splitAtNl_nl]
    · rw [splitAtNl_cons_ne hc]
      exact ih _

theorem splitAtNl_acc (z : List Char) : ∀ acc,
    splitAtNl z acc
      = (acc.reverse ++ (splitAtNl z []).headD []) :: (splitAtNl z []).tail := by
  induction z with
  | nil => intro acc; simp [splitAtNl_nil]
  | cons c rest ih =>
    intro acc
    by_cases hc : c = '\n'
    · subst hc
      simp [splitAtNl_nl]
    · rw [splitAtNl_cons_ne hc, splitAtNl_cons_ne hc rest []]
      rw [ih (c :: acc), ih [c]]
      simp

theorem splitAtNl_append_nl (y : List Char) : ∀ (x acc : List Char),
    splitAtNl (x ++ '\n' :: y) acc = splitAtNl x acc ++ splitAtNl y [] := by
  intro x
  induction x with
  | nil => intro acc; simp [splitAtNl_nl, splitAtNl_nil]
  | cons c rest ih =>
    intro acc
    by_cases hc : c = '\n'
    · subst hc
      rw [List.cons_append, splitAtNl_nl, splitAtNl_nl, ih []]
      simp
    · rw [List.cons_append, splitAtNl_cons_ne hc, splitAtNl_cons_ne hc, ih]

theorem splitAtNl_no_nl {x : List Char} (hx : '\n' ∉ x) : ∀ acc,
    splitAtNl x acc = [acc.reverse ++ x] := by
  induction x with
  | nil => intro acc; simp [splitAtNl_nil]
  | cons c rest ih =>
    intro acc
    have hc : c ≠ '\n' := fun h => hx (h ▸ List.mem_cons_self c rest)
    rw [splitAtNl_cons_ne hc, ih (fun h => hx (List.mem_cons_of_mem c h))]
    simp

theorem splitAtNl_snoc_nl (y : List Char) : ∀ acc,
    splitAtNl (y ++ ['\n']) acc = splitAtNl y acc ++ [[]] := by
  induction y with
  | nil => intro acc; simp [splitAtNl_nil, splitAtNl_nl]
  | cons c rest ih =>
    intro acc
    by_cases hc : c = '\n'
    · subst hc
      rw [List.cons_append, splitAtNl_nl, splitAtNl_nl, ih []]
      simp
    · rw [List.cons_append, splitAtNl_cons_ne hc, splitAtNl_cons_ne hc, ih]

theorem headD_cons_tail {α : Type} {l : List α} (h : l ≠ []) (d : α) :
    l = l.headD d :: l.tail := by
  cases l with
  | nil => exact absurd rfl h
  | cons a t => rfl

theorem trimChars_cons_ws {c : Char} (hc : isWs c = true) (p : List Char) :
    trimChars (c :: p) = trimChars p := by
  unfold trimChars
  rw [List.dropWhile_cons, if_pos hc]

theorem trimChars_eq_nil_iff {l : List Char} :
    trimChars l = [] ↔ l.all isWs = true := by
  constructor
  · intro h
    unfold trimChars at h
    rw [List.reverse_eq_nil_iff, List.dropWhile_eq_nil_iff] at h
    rw [List.all_eq_true]
    intro x hx
    rcases List.mem_append.mp
        ((List.takeWhile_append_dropWhile (p := isWs) (l := l)) ▸ hx) with hx1 | hx1
    · exact List.mem_takeWhile_imp hx1
    · exact h x (List.mem_reverse.mpr hx1)
  · exact trimChars_of_all_ws

theorem isNonEmptyLine_cons_ws {c : Char} (hc : isWs c = true) (p : List Char) :
    isNonEmptyLine (c :: p) = isNonEmptyLine p := by
  unfold isNonEmptyLine
  rw [trimChars_cons_ws hc]

theorem isNonEmptyLine_reverse (p : List Char) :
    isNonEmptyLine p.reverse = isNonEmptyLine p := by
  unfold isNonEmptyLine
  rcases h : trimChars p with _ | _
  · have hall := trimChars_eq_nil_iff.mp h
    have hall' : p.reverse.all isWs = true := by
      rw [List.all_eq_true] at hall ⊢
      intro x hx
      exact hall x (List.mem_reverse.mp hx)
    rw [trimChars_eq_nil_iff.mpr hall']
  · have h2 : trimChars p.reverse ≠ [] := by
      intro h3
      have hall := trimChars_eq_nil_iff.mp h3
      have hall' : p.all isWs = true := by
        rw [List.all_eq_true] at hall ⊢
        intro x hx
        exact hall x (List.mem_reverse.mpr hx)
      rw [trimChars_eq_nil_iff.mpr hall'] at h
      exact List.noConfusion h
    rcases h4 : trimChars p.reverse with _ | _
    · exact absurd h4 h2
    · rfl

theorem splitAtNl_snoc_ne {c : Char} (hc : c ≠ '\n') (y : List Char) : ∀ acc,
    splitAtNl (y ++ [c]) acc
      = (splitAtNl y acc).dropLast
        ++ [(splitAtNl y acc).getLastD [] ++ [c]] := by
  induction y with
  | nil =>
    intro acc
    rw [List.nil_append, splitAtNl_cons_ne hc, splitAtNl_nil, splitAtNl_nil]
    simp
  | cons c2 rest ih =>
    intro acc
    by_cases hc2 : c2 = '\n'
    · subst hc2
      rw [List.cons_append, splitAtNl_nl, splitAtNl_nl, ih []]
      have hne := splitAtNl_ne_nil rest []
      rw [List.dropLast_cons_of_ne_nil hne]
      rw [show (acc.reverse :: splitAtNl rest []).getLastD []
            = (splitAtNl rest []).getLastD [] from ?_]
      · simp
      · cases h : splitAtNl rest [] with
        | nil => exact absurd h hne
        | cons a t => simp [List.getLastD]
    · rw [List.cons_append, splitAtNl_cons_ne hc2, splitAtNl_cons_ne hc2, ih]

theorem countP_reverse {α : Type} (p : α → Bool) (l : List α) :
    l.reverse.countP p = l.countP p := by
  induction l with
  | nil => rfl
  | cons a t ih =>
    rw [List.reverse_cons, List.countP_append, List.countP_cons, ih]
    simp [List.countP_cons]

theorem nlLines_reverse (z : List Char) :
    nlLines z.reverse = ((nlLines z).map List.reverse).reverse := by
  induction z with
  | nil => rfl
  | cons c rest ih =>
    rw [List.reverse_cons]
    by_cases hc : c = '\n'
    · subst hc
      unfold nlLines
      rw [splitAtNl_snoc_nl, splitAtNl_nl]
      rw [show splitAtNl rest.reverse [] = nlLines rest.reverse from rfl, ih]
      simp
      rfl
    · unfold nlLines
      rw [splitAtNl_snoc_ne hc]
      rw [show splitAtNl rest.reverse [] = nlLines rest.reverse from rfl, ih]
      rw [splitAtNl_cons_ne hc, splitAtNl_acc rest]
      have hne := splitAtNl_ne_nil rest ([] : List Char)
      conv_rhs =>
        rw [show splitAtNl rest [] = nlLines rest from rfl,
          headD_cons_tail (l := nlLines rest) hne ([] : List Char)]
      simp [List.getLastD_concat]
      cases (nlLines rest).head? <;> rfl

theorem totalNonEmptyOf_cons_ws {c : Char} (hc : isWs c = true) (rest : List Char) :
    totalNonEmptyOf (c :: rest) = totalNonEmptyOf rest := by
  by_cases hnl : c = '\n'
  · subst hnl
    unfold totalNonEmptyOf nlLines
    rw [splitAtNl_nl, List.countP_cons]
    simp [isNonEmptyLine, trimChars]
  · unfold totalNonEmptyOf nlLines
    rw [splitAtNl_cons_ne hnl, splitAtNl_acc rest]
    have hne := splitAtNl_ne_nil rest ([] : List Char)
    conv_rhs => rw [headD_cons_tail (l := splitAtNl rest []) hne ([] : List Char)]
    rw [List.countP_cons, List.countP_cons]
    simp only [List.reverse_cons, List.reverse_nil, List.nil_append, List.cons_append]
    rw [isNonEmptyLine_cons_ws hc]

theorem totalNonEmptyOf_dropWs (z : List Char) :
    totalNonEmptyOf (z.dropWhile isWs) = totalNonEmptyOf z := by
  induction z with
  | nil => rfl
  | cons c rest ih =>
    rw [List.dropWhile_cons]
    by_cases hc : isWs c = true
    · rw [if_pos hc, ih, totalNonEmptyOf_cons_ws hc]
    · rw [if_neg hc]

theorem totalNonEmptyOf_reverse (z : List Char) :
    totalNonEmptyOf z.reverse = totalNonEmptyOf z := by
  unfold totalNonEmptyOf
  rw [nlLines_reverse, countP_reverse, List.countP_map]
  exact List.countP_congr (fun a _ => by simp [Function.comp, isNonEmptyLine_reverse])

theorem totalNonEmptyOf_trim (z : List Char) :
    totalNonEmptyOf (trimChars z) = totalNonEmptyOf z := by
  unfold trimChars
  rw [totalNonEmptyOf_reverse, totalNonEmptyOf_dropWs, totalNonEmptyOf_reverse,
    totalNonEmptyOf_dropWs]

theorem totalNonEmptyOf_append_nl (x y : List Char) :
    totalNonEmptyOf (x ++ '\n' :: y) = totalNonEmptyOf x + totalNonEmptyOf y := by
  unfold totalNonEmptyOf nlLines
  rw [splitAtNl_append_nl, List.countP_append]

theorem intercalate_nl_cons (a : List Char) (b : List (List Char)) (hb : b ≠ []) :
    List.intercalate ['\n'] (a :: b) = a ++ '\n' :: List.intercalate ['\n'] b := by
  cases b with
  | nil => exact absurd rfl hb
  | cons x t =>
    unfold List.intercalate
    rw [List.intersperse_cons_cons]
    simp

theorem nlLines_intercalate {L : List (List Char)} (hL : L ≠ [])
    (hnl : ∀ p ∈ L, '\n' ∉ p) :
    nlLines (List.intercalate ['\n'] L) = L := by
  induction L with
  | nil => exact absurd rfl hL
  | cons a t ih =>
    cases t with
    | nil =>
      rw [show List.intercalate ['\n'] [a] = a from by simp [List.intercalate]]
      unfold nlLines
      rw [splitAtNl_no_nl (hnl a (by simp))]
      simp
    | cons b t2 =>
      rw [intercalate_nl_cons a (b :: t2) (by simp)]
      unfold nlLines
      rw [splitAtNl_append_nl, splitAtNl_no_nl (hnl a (by simp))]
      have := ih (by simp) (fun p hp => hnl p (List.mem_cons_of_mem a hp))
      unfold nlLines at this
      rw [this]
      simp

theorem splitLinesRN_cons_ne {c : Char} (hc : c ≠ '\n') (rest acc : List Char) :
    splitLinesRN (c :: rest) acc = splitLinesRN rest (c :: acc) := by
  conv_lhs => unfold splitLinesRN
  split
  · rename_i heq
    exact absurd heq (by simp)
  · rename_i rest2 heq
    obtain ⟨h1, -⟩ := List.cons_eq_cons.mp heq
    exact absurd h1 hc
  · rename_i c2 rest2 hne heq
    obtain ⟨h1, h2⟩ := List.cons_eq_cons.mp heq
    rw [← h1, ← h2]

theorem splitLinesRN_no_nl {res : List Char} :
    ∀ (cs acc : List Char), '\n' ∉ acc → res ∈ splitLinesRN cs acc → '\n' ∉ res := by
  intro cs
  induction cs with
  | nil =>
    intro acc hacc hres
    rw [show splitLinesRN [] acc = [acc.reverse] from rfl] at hres
    rw [List.mem_singleton] at hres
    subst hres
    simp [hacc]
  | cons c rest ih =>
    intro acc hacc hres
    by_cases hc : c = '\n'
    · subst hc
      unfold splitLinesRN at hres
      rcases List.mem_cons.mp hres with hres1 | hres1
      · split at hres1
        · subst hres1
          intro hmem
          exact hacc (List.mem_cons_of_mem _ (List.mem_reverse.mp hmem))
        · subst hres1
          intro hmem
          exact hacc (List.mem_reverse.mp hmem)
      · exact ih [] (by simp) hres1
    · rw [splitLinesRN_cons_ne hc] at hres
      refine ih (c :: acc) ?_ hres
      intro hmem
      rcases List.mem_cons.mp hmem with h1 | h1
      · exact hc h1.symm
      · exact hacc h1

theorem linesOf_no_nl {content : String} {p : List Char} (hp : p ∈ linesOf content) :
    '\n' ∉ p :=
  splitLinesRN_no_nl content.data [] (by simp) hp

/-! ### Entry-grammar exclusivity -/

theorem take_two_of_isPrefixOf {kw r : List Char} (h : kw.isPrefixOf r = true)
    (h2 : 2 ≤ kw.length) : r.take 2 = kw.take 2 := by
  obtain ⟨t, rfl⟩ := List.isPrefixOf_iff_prefix.mp h
  rw [List.take_append_eq_append_take, show 2 - kw.length = 0 from by omega]
  simp

theorem kwSpaceRest_key {kw : String} {l : List Char} (h : kwSpaceRest kw l = true)
    (h2 : 2 ≤ kw.data.length) : take2Key l = kw.data.take 2 := by
  simp only [kwSpaceRest] at h
  split at h
  · rename_i hp
    exact take_two_of_isPrefixOf hp h2
  · exact Bool.noConfusion h

theorem kwParenList_key {kw : String} {l : List Char} (h : kwParenList kw l = true)
    (h2 : 2 ≤ kw.data.length) : take2Key l = kw.data.take 2 := by
  simp only [kwParenList] at h
  split at h
  · rename_i hp
    exact take_two_of_isPrefixOf hp h2
  · exact Bool.noConfusion h

theorem matchAliasLine_key {l : List Char} (h : matchAliasLine l = true) :
    take2Key l = ['a', 'l'] := by
  simp only [matchAliasLine] at h
  split at h
  · rename_i hp
    unfold take2Key
    rw [take_two_of_isPrefixOf hp (by decide)]
    decide
  · exact Bool.noConfusion h

theorem matchExportLine_key {l : List Char} (h : matchExportLine l = true) :
    take2Key l = ['e', 'x'] ∨ take2Key l = ['t', 'y'] := by
  by_cases hp : "export".data.isPrefixOf (dropWs l) = true
  · left
    unfold take2Key
    rw [take_two_of_isPrefixOf hp (by decide)]
    decide
  · by_cases hq : "typeset".data.isPrefixOf (dropWs l) = true
    · right
      unfold take2Key
      rw [take_two_of_isPrefixOf hq (by decide)]
      decide
    · exfalso
      simp only [matchExportLine] at h
      rw [if_neg hp, if_neg hq] at h
      simp at h

theorem matchEvalLine_key {l : List Char} (h : matchEvalLine l = true) :
    take2Key l = ['e', 'v'] :=
  kwSpaceRest_key h (by decide)

theorem matchSetoptLine_key {l : List Char} (h : matchSetoptLine l = true) :
    take2Key l = ['s', 'e'] :=
  kwSpaceRest_key h (by decide)

theorem matchSourceLine_key {l : List Char} (h : matchSourceLine l = true) :
    take2Key l = ['s', 'o'] :=
  kwSpaceRest_key h (by decide)

theorem matchKeybindingLine_key {l : List Char} (h : matchKeybindingLine l = true) :
    take2Key l = ['b', 'i'] :=
  kwSpaceRest_key h (by decide)

theorem matchPluginsLine_key {l : List Char} (h : matchPluginsLine l = true) :
    take2Key l = ['p', 'l'] :=
  kwParenList_key h (by decide)

theorem matchFpathLine_key {l : List Char} (h : matchFpathLine l = true) :
    take2Key l = ['f', 'p'] :=
  kwParenList_key h (by decide)

theorem matchPathLine_key {l : List Char} (h : matchPathLine l = true) :
    take2Key l = ['P', 'A'] := by
  simp only [matchPathLine] at h
  split at h
  · rename_i hp
    unfold take2Key
    rw [take_two_of_isPrefixOf hp (by decide)]
    decide
  · exact Bool.noConfusion h

theorem matchThemeLine_key {l : List Char} (h : matchThemeLine l = true) :
    take2Key l = ['Z', 'S'] := by
  simp only [matchThemeLine] at h
  split at h
  · rename_i hp
    unfold take2Key
    rw [take_two_of_isPrefixOf hp (by decide)]
    decide
  · exact Bool.noConfusion h

theorem matchCompletionLine_key {l : List Char} (h : matchCompletionLine l = true) :
    take2Key l = ['c', 'o'] := by
  simp only [matchCompletionLine, Bool.and_eq_true] at h
  unfold take2Key
  rw [take_two_of_isPrefixOf h.1 (by decide)]
  decide

theorem matchHistoryLine_key {l : List Char} (h : matchHistoryLine l = true) :
    take2Key l = ['H', 'I'] := by
  simp only [matchHistoryLine] at h
  split at h
  · rename_i hp
    unfold take2Key
    rw [take_two_of_isPrefixOf hp (by decide)]
    decide
  · exact Bool.noConfusion h

theorem matchAutoloadLine_key {l : List Char} (h : matchAutoloadLine l = true) :
    take2Key l = ['a', 'u'] := by
  simp only [matchAutoloadLine] at h
  split at h
  · rename_i hp
    unfold take2Key
    rw [take_two_of_isPrefixOf hp (by decide)]
    decide
  · exact Bool.noConfusion h

/-- Soundness of the key table: a line matching one of the thirteen
non-function grammars has that grammar's key. -/
theorem typedMatchers_sound {l : List Char} :
    ∀ p ∈ typedMatchers, p.1 l = true → take2Key l ∈ p.2 := by
  intro p hp hpl
  simp only [typedMatchers, List.mem_cons, List.not_mem_nil, or_false] at hp
  rcases hp with rfl | rfl | rfl | rfl | rfl | rfl | rfl | rfl | rfl | rfl | rfl | rfl | rfl
  · simp [matchAliasLine_key hpl]
  · rcases matchExportLine_key hpl with h | h <;> simp [h]
  · simp [matchEvalLine_key hpl]
  · simp [matchSetoptLine_key hpl]
  · simp [matchPluginsLine_key hpl]
  · simp [matchSourceLine_key hpl]
  · simp [matchAutoloadLine_key hpl]
  · simp [matchFpathLine_key hpl]
  · simp [matchPathLine_key hpl]
  · simp [matchThemeLine_key hpl]
  · simp [matchCompletionLine_key hpl]
  · simp [matchHistoryLine_key hpl]
  · simp [matchKeybindingLine_key hpl]

/-- A list of guarded matchers with pairwise disjoint key sets admits at
most one match per line. -/
theorem sum_indicator_le_one {α : Type} (key : α → List Char) (x : α) :
    ∀ (ms : List ((α → Bool) × List (List Char))),
      (∀ p ∈ ms, p.1 x = true → key x ∈ p.2) →
      ms.Pairwise (fun p q => ∀ k, k ∈ p.2 → k ∉ q.2) →
      (ms.map (fun p => if p.1 x then 1 else 0)).sum ≤ 1 := by
  intro ms
  induction ms with
  | nil => intro _ _; simp
  | cons hd tl ih =>
    intro sound disj
    rw [List.pairwise_cons] at disj
    simp only [List.map_cons, List.sum_cons]
    by_cases hh : hd.1 x = true
    · have hk := sound hd (by simp) hh
      have hz : (tl.map (fun p => if p.1 x then 1 else 0)).sum = 0 := by
        rw [List.sum_eq_zero]
        intro n hn
        rw [List.mem_map] at hn
        obtain ⟨p, hp, rfl⟩ := hn
        have hpf : p.1 x = false := by
          by_cases hq : p.1 x = true
          · exact absurd hq (fun hq2 =>
              disj.1 p hp (key x) hk (sound p (List.mem_cons_of_mem hd hp) hq2))
          · simpa using hq
        simp [hpf]
      rw [hh, hz]
      simp
    · have hh' : hd.1 x = false := by simpa using hh
      rw [hh']
      have := ih (fun p hp hq => sound p (List.mem_cons_of_mem hd hp) hq) disj.2
      simpa using this

theorem typedLineCount_eq_listSum (l : List Char) :
    typedLineCount l
      = (typedMatchers.map (fun p => if p.1 l then 1 else 0)).sum
        + (if matchFunctionLine l then 1 else 0) := by
  simp only [typedLineCount, typedMatchers, List.map_cons, List.map_nil, List.sum_cons,
    List.sum_nil]
  omega

/-- A line that is not a function definition matches at most one typed
grammar. -/
theorem typedLineCount_le_one {l : List Char} (hf : matchFunctionLine l = false) :
    typedLineCount l ≤ 1 := by
  rw [typedLineCount_eq_listSum, hf]
  have hle := sum_indicator_le_one take2Key l typedMatchers
    (fun p hp hq => typedMatchers_sound p hp hq)
    (by simp only [typedMatchers]; decide)
  simpa using hle

theorem dropWs_eq_nil_of_all_ws {l : List Char} (h : l.all isWs = true) :
    dropWs l = [] := by
  unfold dropWs
  rw [List.dropWhile_eq_nil_iff]
  intro x hx
  exact List.all_eq_true.mp h x hx

/-- A whitespace-only line matches no typed grammar at all. -/
theorem typedLineCount_eq_zero {l : List Char} (h : isNonEmptyLine l = false) :
    typedLineCount l = 0 := by
  have htrim : trimChars l = [] := by
    unfold isNonEmptyLine at h
    rcases h2 : trimChars l with _ | _
    · rfl
    · rw [h2] at h
      exact Bool.noConfusion h
  have hd : dropWs l = [] :=
    dropWs_eq_nil_of_all_ws (trimChars_eq_nil_iff.mp htrim)
  have htk : take2Key l = [] := by
    unfold take2Key
    rw [hd]
    rfl
  have hf : matchFunctionLine l = false := by
    unfold matchFunctionLine
    rw [htrim]
    rfl
  rw [typedLineCount_eq_listSum, hf]
  have hz : (typedMatchers.map (fun p => if p.1 l then 1 else 0)).sum = 0 := by
    rw [List.sum_eq_zero]
    intro n hn
    rw [List.mem_map] at hn
    obtain ⟨p, hp, rfl⟩ := hn
    have hpf : p.1 l = false := by
      by_cases hq : p.1 l = true
      · exfalso
        have hk := typedMatchers_sound p hp hq
        rw [htk] at hk
        revert hk
        simp only [typedMatchers, List.mem_cons, List.not_mem_nil, or_false] at hp
        rcases hp with rfl | rfl | rfl | rfl | rfl | rfl | rfl | rfl | rfl | rfl | rfl | rfl | rfl <;> decide
      · simpa using hq
    simp [hpf]
  rw [hz]
  rfl

/-- If the detector reports no marker on a format list, every grammar in the
list fails on the line. -/
theorem detectFrom_none {line : String} {n : Nat} :
    ∀ {fs : List (SectionMarkerType × (List Char → Option (List Char)))},
      detectFrom line n fs = none →
      ∀ p ∈ fs, p.2 (trimChars line.data) = none := by
  intro fs
  induction fs with
  | nil => intro _ p hp; cases hp
  | cons hd tl ih =>
    intro h p hp
    obtain ⟨t, m⟩ := hd
    rw [detectFrom] at h
    cases hm : m (trimChars line.data) with
    | some cap =>
      rw [hm] at h
      exact Option.noConfusion h
    | none =>
      rw [hm] at h
      rcases List.mem_cons.mp hp with rfl | hp2
      · exact hm
      · exact ih h p hp2

/-- A line on which the detector reports no marker is not a function
definition either: the function entry grammar shares its shape with the
function_start marker grammar. -/
theorem matchFunctionLine_eq_false_of_detect {l : List Char} {n : Nat}
    (h : detectSectionMarker l.asString n = none) :
    matchFunctionLine l = false := by
  have hfs := detectFrom_none h (.function_start, functionNameOf) (by simp [markerFormats])
  unfold matchFunctionLine
  have hfs2 : functionNameOf (trimChars l) = none := hfs
  rw [hfs2]
  rfl

/-- Per-line bound: a skipped or markerless line contributes at most its
non-emptiness to the typed counts. -/
theorem typedLineCount_bound {l : List Char} {n : Nat}
    (h : l = [] ∨ detectSectionMarker l.asString n = none) :
    typedLineCount l ≤ (if isNonEmptyLine l then 1 else 0) := by
  by_cases hne : isNonEmptyLine l = true
  · rw [hne, if_pos rfl]
    rcases h with rfl | h
    · exact absurd hne (by decide)
    · exact typedLineCount_le_one (matchFunctionLine_eq_false_of_detect h)
  · have hne' : isNonEmptyLine l = false := by simpa using hne
    rw [hne', if_neg (by simp)]
    rw [typedLineCount_eq_zero hne']

theorem countP_eq_sum_map {α : Type} (p : α → Bool) (L : List α) :
    L.countP p = (L.map (fun a => if p a then 1 else 0)).sum := by
  induction L with
  | nil => rfl
  | cons a t ih =>
    rw [List.countP_cons, List.map_cons, List.sum_cons, ih]
    omega

theorem sumTyped_countAll (c : List Char) :
    sumTyped (countAllPatterns c) = ((nlLines c).map typedLineCount).sum := by
  unfold sumTyped countAllPatterns
  dsimp only
  generalize nlLines c = L
  induction L with
  | nil => rfl
  | cons a t ih =>
    simp only [List.countP_cons, List.map_cons, List.sum_cons, typedLineCount] at *
    omega

/-! ### Builder invariants -/

theorem mem_slice_getD {lines : List (List Char)} {a b : Nat} {l : List Char}
    (hl : l ∈ (lines.drop a).take b) :
    ∃ j, a ≤ j ∧ j < a + b ∧ j < lines.length ∧ lines.getD j [] = l := by
  rw [List.mem_iff_getElem] at hl
  obtain ⟨k, hk, heq⟩ := hl
  have hk1 : k < b := lt_of_lt_of_le hk (by
    rw [List.length_take]
    exact min_le_left _ _)
  have hk2 : k < (lines.drop a).length := lt_of_lt_of_le hk (by
    rw [List.length_take]
    exact min_le_right _ _)
  have hk3 : a + k < lines.length := by
    rw [List.length_drop] at hk2
    omega
  refine ⟨a + k, by omega, by omega, hk3, ?_⟩
  rw [List.getD_eq_getElem _ _ hk3, ← heq, List.getElem_take, List.getElem_drop]

theorem slice_sublist (lines : List (List Char)) (a b : Nat) :
    ((lines.drop a).take b).Sublist lines :=
  (List.take_sublist _ _).trans (List.drop_sublist _ _)

/-- Every emitted range whose lines are all skipped-empty or markerless
satisfies the count identity. -/
theorem pushSection_balanced {lines : List (List Char)} {start endL : Nat}
    {label : Option String} {s : LogicalSection}
    (hok : ∀ l ∈ (lines.drop (start - 1)).take (endL - (start - 1)),
        l = [] ∨ ∃ n, detectSectionMarker l.asString n = none)
    (hnl : ∀ l ∈ (lines.drop (start - 1)).take (endL - (start - 1)), '\n' ∉ l)
    (hpush : pushSection lines start endL label = some s) :
    sectionBalanced s := by
  unfold pushSection at hpush
  split at hpush
  · exact Option.noConfusion hpush
  · obtain rfl := (Option.some.inj hpush).symm
    unfold sectionBalanced sumSectionTyped
    dsimp only
    show sumTyped (countAllPatterns (List.intercalate ['\n']
          ((lines.drop (start - 1)).take (endL - (start - 1)))))
        + (totalNonEmptyOf (List.intercalate ['\n']
            ((lines.drop (start - 1)).take (endL - (start - 1))))
          - sumTyped (countAllPatterns (List.intercalate ['\n']
              ((lines.drop (start - 1)).take (endL - (start - 1))))))
      = totalNonEmptyOf (List.intercalate ['\n']
          ((lines.drop (start - 1)).take (endL - (start - 1))))
    set L := (lines.drop (start - 1)).take (endL - (start - 1)) with hL
    suffices hle : sumTyped (countAllPatterns (List.intercalate ['\n'] L))
        ≤ totalNonEmptyOf (List.intercalate ['\n'] L) by omega
    by_cases hLnil : L = []
    · rw [hLnil]
      decide
    · have hround : nlLines (List.intercalate ['\n'] L) = L :=
        nlLines_intercalate hLnil hnl
      rw [sumTyped_countAll, hround]
      unfold totalNonEmptyOf
      rw [hround, countP_eq_sum_map]
      refine List.sum_le_sum ?_
      intro l hl
      rcases hok l hl with h1 | ⟨n, h2⟩
      · exact typedLineCount_bound (n := 0) (Or.inl h1)
      · exact typedLineCount_bound (n := n) (Or.inr h2)

theorem marker_type_covered (t : SectionMarkerType) :
    endMarkerTypes.contains t = true ∨ startMarkerTypes.contains t = true := by
  cases t <;> first
    | exact Or.inl (by decide)
    | exact Or.inr (by decide)

theorem scanStep_inv (lines : List (List Char))
    (hnl : ∀ l ∈ lines, '\n' ∉ l) (st : BuildState) (i : Nat)
    (hsec : ∀ s ∈ st.sections, sectionBalanced s)
    (hstart : 1 ≤ st.currentStart)
    (hok : ∀ j, st.currentStart - 1 ≤ j → j < i →
        lines.getD j [] = []
        ∨ ∃ n, detectSectionMarker (lines.getD j []).asString n = none) :
    (∀ s ∈ (scanStep lines st i).sections, sectionBalanced s)
    ∧ 1 ≤ (scanStep lines st i).currentStart
    ∧ ∀ j, (scanStep lines st i).currentStart - 1 ≤ j → j < i + 1 →
        lines.getD j [] = []
        ∨ ∃ n, detectSectionMarker (lines.getD j []).asString n = none := by
  have hpushed : ∀ s2 ∈ (pushSection lines st.currentStart i st.currentLabel).toList,
      sectionBalanced s2 := by
    intro s2 hs2
    rw [Option.mem_toList, Option.mem_def] at hs2
    refine pushSection_balanced ?_ ?_ hs2
    · intro l hl
      obtain ⟨j, hj1, hj2, hj3, hj4⟩ := mem_slice_getD hl
      rw [← hj4]
      exact hok j hj1 (by omega)
    · intro l hl
      exact hnl l ((slice_sublist lines _ _).mem hl)
  have hkeep : ∀ (h : scanStep lines st i = st),
      (∀ j, j = i →
        lines.getD j [] = []
        ∨ ∃ n, detectSectionMarker (lines.getD j []).asString n = none) →
      (∀ s ∈ (scanStep lines st i).sections, sectionBalanced s)
      ∧ 1 ≤ (scanStep lines st i).currentStart
      ∧ ∀ j, (scanStep lines st i).currentStart - 1 ≤ j → j < i + 1 →
          lines.getD j [] = []
          ∨ ∃ n, detectSectionMarker (lines.getD j []).asString n = none := by
    intro h hi
    rw [h]
    refine ⟨hsec, hstart, ?_⟩
    intro j hj1 hj2
    by_cases hji : j < i
    · exact hok j hj1 hji
    · exact hi j (by omega)
  by_cases hraw : (lines.getD i []).isEmpty = true
  · refine hkeep ?_ ?_
    · unfold scanStep
      rw [if_pos hraw]
    · intro j hj
      rw [hj]
      exact Or.inl (List.isEmpty_iff.mp hraw)
  · cases hdet : detectSectionMarker (lines.getD i []).asString (i + 1) with
    | none =>
      refine hkeep ?_ ?_
      · unfold scanStep
        rw [if_neg hraw]
        simp only [hdet]
      · intro j hj
        rw [hj]
        exact Or.inr ⟨i + 1, hdet⟩
    | some m =>
      have hmoved : ∀ (lbl : Option String),
          scanStep lines st i =
            { sections := st.sections
                ++ (pushSection lines st.currentStart i st.currentLabel).toList
              currentLabel := lbl
              currentStart := i + 2
              context := updateSectionContext m st.context } →
          (∀ s ∈ (scanStep lines st i).sections, sectionBalanced s)
          ∧ 1 ≤ (scanStep lines st i).currentStart
          ∧ ∀ j, (scanStep lines st i).currentStart - 1 ≤ j → j < i + 1 →
              lines.getD j [] = []
              ∨ ∃ n, detectSectionMarker (lines.getD j []).asString n = none := by
        intro lbl h
        rw [h]
        dsimp only
        refine ⟨?_, by omega, ?_⟩
        · intro s2 hs2
          rcases List.mem_append.mp hs2 with h1 | h1
          · exact hsec s2 h1
          · exact hpushed s2 h1
        · intro j hj1 hj2
          exfalso
          omega
      by_cases hend : endMarkerTypes.contains m.type = true
      · refine hmoved none ?_
        unfold scanStep
        rw [if_neg hraw]
        simp only [hdet]
        rw [if_pos hend]
      · have hcov : startMarkerTypes.contains m.type = true := by
          rcases marker_type_covered m.type with h1 | h1
          · exact absurd h1 hend
          · exact h1
        refine hmoved (some m.name) ?_
        unfold scanStep
        rw [if_neg hraw]
        simp only [hdet]
        rw [if_neg hend, if_pos hcov]

theorem scanFold_inv {lines : List (List Char)} (hnl : ∀ l ∈ lines, '\n' ∉ l) :
    ∀ k : Nat,
      (∀ s ∈ ((List.range k).foldl (scanStep lines)
          ⟨[], none, 1, initialContext⟩).sections, sectionBalanced s)
      ∧ 1 ≤ ((List.range k).foldl (scanStep lines)
          ⟨[], none, 1, initialContext⟩).currentStart
      ∧ ∀ j, ((List.range k).foldl (scanStep lines)
            ⟨[], none, 1, initialContext⟩).currentStart - 1 ≤ j → j < k →
          lines.getD j [] = []
          ∨ ∃ n, detectSectionMarker (lines.getD j []).asString n = none := by
  intro k
  induction k with
  | zero =>
    refine ⟨?_, ?_, ?_⟩
    · intro s hs
      exact absurd hs (List.not_mem_nil s)
    · exact Nat.le_refl 1
    · intro j hj1 hj2
      omega
  | succ k ih =>
    rw [List.range_succ, List.foldl_append]
    exact scanStep_inv lines hnl _ k ih.1 ih.2.1 ih.2.2

theorem mergeTwo_balanced {a b : LogicalSection}
    (ha : sectionBalanced a) (hb : sectionBalanced b) :
    sectionBalanced (mergeTwo a b) := by
  unfold sectionBalanced sumSectionTyped at *
  unfold mergeTwo
  dsimp only
  rw [show ((trimChars (a.content.data ++ '\n' :: b.content.data)).asString).data
      = trimChars (a.content.data ++ '\n' :: b.content.data) from rfl]
  rw [totalNonEmptyOf_trim, totalNonEmptyOf_append_nl]
  omega

theorem mergeStep_balanced {acc : List LogicalSection} {s : LogicalSection}
    (hacc : ∀ x ∈ acc, sectionBalanced x) (hs : sectionBalanced s) :
    ∀ x ∈ mergeStep acc s, sectionBalanced x := by
  intro x hx
  unfold mergeStep at hx
  cases hl : acc.getLast? with
  | none =>
    rw [hl] at hx
    split at hx
    · rename_i heq
      exact absurd heq (by simp)
    · rcases List.mem_append.mp hx with h1 | h1
      · exact hacc x h1
      · rw [List.mem_singleton] at h1
        subst h1
        exact hs
  | some last =>
    rw [hl] at hx
    split at hx
    · rename_i last2 heq
      have hl2 : acc.getLast? = some last2 := hl.trans heq
      split at hx
      · rcases List.mem_append.mp hx with h1 | h1
        · exact hacc x ((List.dropLast_sublist acc).mem h1)
        · rw [List.mem_singleton] at h1
          subst h1
          exact mergeTwo_balanced
            (hacc last2 (List.mem_of_mem_getLast? (by rw [hl2]; rfl))) hs
      · rcases List.mem_append.mp hx with h1 | h1
        · exact hacc x h1
        · rw [List.mem_singleton] at h1
          subst h1
          exact hs
    · rename_i heq
      exact absurd heq (by simp)

theorem foldl_mergeStep_balanced :
    ∀ (L : List LogicalSection) (acc : List LogicalSection),
      (∀ x ∈ acc, sectionBalanced x) → (∀ x ∈ L, sectionBalanced x) →
      ∀ x ∈ L.foldl mergeStep acc, sectionBalanced x := by
  intro L
  induction L with
  | nil => intro acc hacc _ x hx; exact hacc x hx
  | cons a t ih =>
    intro acc hacc hL x hx
    rw [List.foldl_cons] at hx
    exact ih (mergeStep acc a)
      (mergeStep_balanced hacc (hL a (by simp)))
      (fun y hy => hL y (List.mem_cons_of_mem a hy)) x hx

/-- C8.  For every LogicalSection emitted by `toLogicalSections`, the sum of
the fourteen per-kind counts plus `otherCount` equals the number of
non-empty (non-whitespace-only) lines of the section's content. -/
theorem toLogicalSections_counts (content : String) :
    ∀ s ∈ toLogicalSections content,
      sumSectionTyped s + s.otherCount = totalNonEmptyOf s.content.data := by
  intro s hs
  unfold toLogicalSections at hs
  have hnl : ∀ l ∈ linesOf content, '\n' ∉ l := fun l hl => linesOf_no_nl hl
  have hinv := scanFold_inv hnl (linesOf content).length
  refine foldl_mergeStep_balanced _ [] (by intro x hx; cases hx) ?_ s hs
  intro x hx
  rcases List.mem_append.mp hx with h1 | h1
  · exact hinv.1 x h1
  · rw [Option.mem_toList, Option.mem_def] at h1
    refine pushSection_balanced ?_ ?_ h1
    · intro l hl
      obtain ⟨j, hj1, hj2, hj3, hj4⟩ := mem_slice_getD hl
      rw [← hj4]
      exact hinv.2.2 j hj1 hj3
    · intro l hl
      exact hnl l ((slice_sublist _ _ _).mem hl)

/-- C8 witness: on a two-line file with one alias line and one unclassified
line, the single emitted section has aliasCount 1, otherCount 1 and two
non-empty content lines. -/
theorem toLogicalSections_counts_witness :
    ∃ s, toLogicalSections "alias a=\"b\"\nsome plain text" = [s]
      ∧ sumSectionTyped s + s.otherCount = totalNonEmptyOf s.content.data
      ∧ s.aliasCount = 1 ∧ s.otherCount = 1 := by
  refine ⟨(toLogicalSections "alias a=\"b\"\nsome plain text").headD
    ⟨"", 0, 0, "", 0, 0, 0, 0, 0, 0, 0, 0, 0, 0, 0, 0, 0, 0, 0⟩, ?_, ?_, ?_, ?_⟩
  · decide
  · exact toLogicalSections_counts "alias a=\"b\"\nsome plain text" _ (by decide)
  · decide
  · decide

end Zshrc
